import Mathlib

/-!
Verification of the `static_hash_store` package: a persistent, append-only,
memory-mapped hash map (`store.py`) with an attached Bloom filter
(`bloom.py`) over the binary layout fixed in `const.py`.

The file image is modelled as a `List Nat` of bytes.  Reads performed by
`struct.unpack_from` are modelled by `readLE` guarded by the explicit length
check that `unpack_from` performs (it raises `struct.error` when the buffer
is too short); Python slice reads (`mm[a:b]`), which clamp instead of
raising, are modelled by `pySlice`.  The BLAKE2b digests computed by
`hashlib`/`Bloom._hashes` are external library calls and are modelled by an
abstract `HashFn`; the code never relies on any property of the digest
beyond its width, which is enforced by reducing modulo `2^64` exactly where
the 8-byte little-endian loads occur in the source.

Stateful methods are modelled as state-passing functions returning the new
`Store`; methods that can raise return the Python exception outcome
alongside the state at the moment the exception escapes.
-/

/-- Little-endian value of a byte list (least significant byte first). -/
def leVal : List Nat → Nat
  | [] => 0
  | b :: t => b + 256 * leVal t

/-- `w` little-endian bytes of `n`, as written by `struct.pack` for an
exact-width field (callers guarantee `n < 2^(8*w)`; `struct.pack` raises
otherwise, which the store models with explicit guards where reachable). -/

def leBytes : Nat → Nat → List Nat
  | 0, _ => []
  | w + 1, n => (n % 256) :: leBytes w (n / 256)

/-- Python slice `f[o : o+n]`: clamps at the end of the buffer. -/
def pySlice (f : List Nat) (o n : Nat) : List Nat :=
  (f.drop o).take n

/-- Little-endian read of `w` bytes at offset `o`, the value produced by
`struct.unpack_from` once the buffer-length check has passed. -/

def readLE (f : List Nat) (o w : Nat) : Nat :=
  leVal (pySlice f o w)

/-- In-place write of `d` at offset `o` (mmap slice assignment; callers
guarantee `o + d.length ≤ f.length`, as mmap assignment requires an
exact-size range). -/

def writeBytes (f : List Nat) (o : Nat) (d : List Nat) : List Nat :=
  f.take o ++ d ++ f.drop (o + d.length)

/-- Abstract model of the BLAKE2b digests used by the package: `d8` is the
8-byte digest of `store.py` (`digest_size=8`), `d16lo`/`d16hi` are the two
u64 halves of the 16-byte digest of `bloom.py` (`digest_size=16`). -/

structure HashFn where
  d8 : List Nat → Nat
  d16lo : List Nat → Nat
  d16hi : List Nat → Nat

/-! ## Constants (`const.py`) -/

/-- `MAGIC = b"SHS1"`. -/
def MAGICB : List Nat := [0x53, 0x48, 0x53, 0x31]

def VERSION_MINOR : Nat := 0

/-- The 20 bytes produced by `struct.pack(HEADER_FMT, MAGIC, VERSION_MINOR,
key_size, segment_count, bloom_bits)` with `HEADER_FMT = "<4sHHLQ"`. -/

def header20 (ks segs bb : Nat) : List Nat :=
  MAGICB ++ leBytes 2 VERSION_MINOR ++ leBytes 2 ks ++ leBytes 4 segs ++
    leBytes 8 bb

/-! ## Bloom filter (`bloom.py`) -/

/-- Bloom filter state: bit-address space `m`, hash count `k`, byte array
`bits`.  `m` and `k` are computed in `Bloom.__init__` by the float formula
`m = ceil(-(n·ln p)/(ln 2)²)`, `k = ceil((m/n)·ln 2)`; the formula depends
only on the clamped item count and the fp rate, never on the `bits`
argument.  The two numbers are passed in explicitly here since the float
computation is external to the byte-level model. -/

structure Bloom where
  m : Nat
  k : Nat
  bits : List Nat
deriving DecidableEq, Repr

/-- `ceil(-(1·ln 0.01)/(ln 2)²) = ceil(9.5849…) = 10`: the value of `m`
computed by `Bloom.__init__(1, 0.01)`, the only instantiation the store
performs (`n_items` is always 1, `bloom_fp` defaults to 0.01). -/

def BLOOM_M0 : Nat := 10

/-- `ceil((10/1)·ln 2) = ceil(6.9314…) = 7`: the value of `k` computed by
`Bloom.__init__(1, 0.01)`. -/

def BLOOM_K0 : Nat := 7

/-- `Bloom.__init__` with `bits=None`: fresh zero byte array of
`(m+7)//8` bytes. -/

def Bloom.init (m k : Nat) : Bloom :=
  ⟨m, k, List.replicate ((m + 7) / 8) 0⟩

/-- `Bloom.from_bytes`: calls the constructor with the loaded byte array;
`m` and `k` still come from the constructor formula, not from the data. -/

def Bloom.from_bytes (m k : Nat) (data : List Nat) : Bloom :=
  ⟨m, k, data⟩

/-- One iteration of the loop body of `Bloom.add` for index `i`: the bit
index is `(h1 + i·h2) % m` computed with the *current* `m` (the generator
`_hashes` reads `self.m` lazily); the byte array grows on demand, updating
`m` to `8·len(bits)`. -/

def bloomStep (h1 h2 i : Nat) (b : Bloom) : Bloom :=
  let bit := (h1 + i * h2) % b.m
  let byteI := bit / 8
  let mask := 1 <<< (bit % 8)
  if byteI ≥ b.bits.length then
    let bits1 := b.bits ++ List.replicate (byteI + 1 - b.bits.length) 0
    ⟨bits1.length * 8, b.k, bits1.set byteI (bits1.getD byteI 0 ||| mask)⟩
  else
    ⟨b.m, b.k, b.bits.set byteI (b.bits.getD byteI 0 ||| mask)⟩

/-- The loop of `Bloom.add`, iterating `i = start, start+1, …` for `n`
steps while threading the (possibly growing) filter state. -/

def bloomAddGo (h1 h2 : Nat) : Nat → Nat → Bloom → Bloom
  | _, 0, b => b
  | i, n + 1, b => bloomAddGo h1 h2 (i + 1) n (bloomStep h1 h2 i b)

/-- `Bloom.add`: sets the `k` double-hashed bit indices of `key`. -/
def Bloom.add (hf : HashFn) (key : List Nat) (b : Bloom) : Bloom :=
  bloomAddGo (hf.d16lo key % 2 ^ 64) (hf.d16hi key % 2 ^ 64) 0 b.k b

/-- Loop of `Bloom.__contains__`: `all(...)` evaluates the generator in
order and short-circuits at the first unset bit; indexing past the end of
the byte array raises `IndexError`, modelled by `none`. -/

def bloomHasGo (h1 h2 m : Nat) (bits : List Nat) : Nat → Nat → Option Bool
  | _, 0 => some true
  | i, n + 1 =>
    let bit := (h1 + i * h2) % m
    match bits.get? (bit / 8) with
    | none => none
    | some byte =>
      if byte &&& (1 <<< (bit % 8)) ≠ 0 then bloomHasGo h1 h2 m bits (i + 1) n
      else some false

/-- `Bloom.__contains__`; `none` models the `IndexError` escape. -/
def Bloom.contains? (hf : HashFn) (key : List Nat) (b : Bloom) : Option Bool :=
  bloomHasGo (hf.d16lo key % 2 ^ 64) (hf.d16hi key % 2 ^ 64) b.m b.bits 0 b.k

/-! ## Store (`store.py`) -/

/-- An open `StaticHashStore`: the mmap image, the configuration adopted at
open, the in-memory Bloom instance and the header-dirty flag. -/

structure Store where
  file : List Nat
  key_size : Nat
  segments : Nat
  bloom : Bloom
  header_dirty : Bool
deriving DecidableEq, Repr

/-- `StaticHashStore._create_new`: 20-byte packed header left-justified to
24 bytes, zeroed bucket table of `8·segments` bytes, one zero Bloom byte;
in-memory Bloom from `Bloom(1, bloom_fp)`; header marked dirty. -/

def Store.createNew (ks segs : Nat) : Store :=
  { file := (header20 ks segs 1 ++ List.replicate 4 0) ++
      List.replicate (8 * segs) 0 ++ [0]
    key_size := ks
    segments := segs
    bloom := Bloom.init BLOOM_M0 BLOOM_K0
    header_dirty := true }

inductive OpenErr
  | shortFile      -- mmap/struct failure on a file shorter than the header
  | invalidFile    -- ValueError "Invalid store file"
  | keySizeMismatch  -- ValueError "Key size mismatch"
deriving DecidableEq, Repr

/-- `StaticHashStore._open_existing`: unpack the header, check magic and
key size, adopt the stored segment count, reload the Bloom bytes from
`[bloom_off, bloom_off + bloom_bits)` (a clamping slice read), clear the
dirty flag. -/

def Store.openExisting (ks : Nat) (f : List Nat) : Except OpenErr Store :=
  if f.length < 20 then .error .shortFile
  else
    let magic := pySlice f 0 4
    let key_sz := readLE f 6 2
    let seg_cnt := readLE f 8 4
    let bloom_bits := readLE f 12 8
    if magic ≠ MAGICB then .error .invalidFile
    else if key_sz ≠ ks then .error .keySizeMismatch
    else
      .ok { file := f
            key_size := ks
            segments := seg_cnt
            bloom := Bloom.from_bytes BLOOM_M0 BLOOM_K0
              (pySlice f (24 + 8 * seg_cnt) bloom_bits)
            header_dirty := false }

/-- Result of `StaticHashStore.get`.  `err` models an uncaught exception
(`struct.error` from `unpack_from` past the end of the file, or
`IndexError` from the Bloom byte array); `diverge` models a chain walk that
never reaches `next == 0` (only possible when some entry's `next_offset`
does not strictly decrease, i.e. on a corrupt image: the walk state is just
the current offset, so revisiting an offset loops forever). -/

inductive GetResult
  | val (v : List Nat)
  | absent
  | err
  | diverge
deriving DecidableEq, Repr

/-- The `while entry_of:` chain walk of `get`.  Each iteration unpacks the
20-byte entry header (raising if it overruns the file), compares the stored
hash and the stored key bytes, and either returns the value bytes or
follows `next_offset`.  `fuel` only bounds the number of iterations; `get`
supplies `file.length + 1`, which exceeds the length of every
repetition-free offset sequence (nonzero offsets with `o + 20 ≤ length`
are pairwise distinct in such a sequence), so `.diverge` is returned
exactly when the walk revisits an offset and hence loops forever. -/

def walkChain (f : List Nat) (ks h : Nat) (key : List Nat) :
    Nat → Nat → GetResult
  | 0, _ => .diverge
  | fuel + 1, o =>
    if o = 0 then .absent
    else if o + 20 ≤ f.length then
      let nxt := readLE f o 8
      let eh := readLE f (o + 8) 8
      let vs := readLE f (o + 16) 4
      if eh = h ∧ pySlice f (o + 20) ks = key then .val (pySlice f (o + 20 + ks) vs)
      else walkChain f ks h key fuel nxt
    else .err

/-- `StaticHashStore.get`, state-passing: hash the key, test the Bloom
filter (negative short-circuit), read the bucket head, walk the chain.
No statement of the method writes to `self` or to the mmap, so the store
component of the result is the input state at every exit. -/

def Store.getM (hf : HashFn) (s : Store) (key : List Nat) :
    GetResult × Store :=
  let h := hf.d8 key % 2 ^ 64
  match s.bloom.contains? hf key with
  | none => (.err, s)
  | some false => (.absent, s)
  | some true =>
    let seg := h % s.segments
    if 24 + 8 * seg + 8 ≤ s.file.length then
      (walkChain s.file s.key_size h key (s.file.length + 1)
        (readLE s.file (24 + 8 * seg) 8), s)
    else (.err, s)

/-- The value returned by `get`. -/
def Store.get (hf : HashFn) (s : Store) (key : List Nat) : GetResult :=
  (Store.getM hf s key).1

inductive PutErr
  | keySize        -- ValueError "Key length mismatch"
  | shortFile      -- struct.error reading the bucket head
  | valueTooBig    -- struct.error packing value_size into "<L"
  | offsetOverflow -- struct.error packing the new head into "<Q"
deriving DecidableEq, Repr

/-- `StaticHashStore.put`, state-passing.  The key-length check runs before
anything is touched.  The entry is packed before the mmap is resized, so a
`value_size` overflow of the u32 field escapes with the state unchanged;
the bucket-head pack runs after the entry bytes are in place, so an
(unreachable in practice) u64 overflow of the offset escapes with the entry
appended but the head not updated and the Bloom not extended.  The
advisory byte-range lock protects against concurrent writers only and has
no effect on single-writer state. -/

def Store.putM (hf : HashFn) (s : Store) (key value : List Nat) :
    Except PutErr Unit × Store :=
  if key.length ≠ s.key_size then (.error .keySize, s)
  else
    let h := hf.d8 key % 2 ^ 64
    let seg := h % s.segments
    let bptr := 24 + 8 * seg
    if bptr + 8 ≤ s.file.length then
      let head := readLE s.file bptr 8
      if value.length < 2 ^ 32 then
        let eof := s.file.length
        let entry := leBytes 8 head ++ leBytes 8 h ++
          leBytes 4 value.length ++ key ++ value
        let f1 := s.file ++ entry
        if eof < 2 ^ 64 then
          (.ok (),
            { s with
              file := writeBytes f1 bptr (leBytes 8 eof)
              bloom := s.bloom.add hf key
              header_dirty := true })
        else (.error .offsetOverflow, { s with file := f1 })
      else (.error .valueTooBig, s)
    else (.error .shortFile, s)

/-- `put` as the end state of a successful call. -/
def Store.put (hf : HashFn) (s : Store) (key value : List Nat) :
    Except PutErr Store :=
  match Store.putM hf s key value with
  | (.ok _, s1) => .ok s1
  | (.error e, _) => .error e

/-- `StaticHashStore.flush`: when the header is dirty, grow the mapping to
cover the Bloom region if needed, copy the Bloom byte array to
`bloom_off = 24 + 8·segments`, rewrite the 20 packed header bytes with
`bloom_bits = len(bits)`, and clear the dirty flag.  `mm.flush()` (msync)
has no effect on the byte image. -/

def Store.flush (s : Store) : Store :=
  if s.header_dirty then
    let bb := s.bloom.bits.length
    let bo := 24 + 8 * s.segments
    let f1 :=
      if s.file.length < bo + bb then
        s.file ++ List.replicate (bo + bb - s.file.length) 0
      else s.file
    let f2 := writeBytes f1 bo s.bloom.bits
    { s with file := writeBytes f2 0 (header20 s.key_size s.segments bb)
             header_dirty := false }
  else s

/-- `StaticHashStore.close`: flush, then unmap; the surviving artifact is
the file image. -/

def Store.close (s : Store) : List Nat :=
  (Store.flush s).file

/-! ## Byte-level lemmas -/

abbrev DiskEntry := Nat × List Nat × List Nat

/-- The on-disk fields of one entry at offset `o`: the 20-byte header's
hash and value-size fields and the key/value bytes (the `next_offset`
field is constrained separately, since `flush` may overwrite its first
byte when the entry sits at `bloom_off + 1`). -/

def entryAt (f : List Nat) (ks : Nat) (o : Nat) (e : DiskEntry) : Prop :=
  o + 20 + ks + e.2.2.length ≤ f.length ∧
  readLE f (o + 8) 8 = e.1 ∧
  readLE f (o + 16) 4 = e.2.2.length ∧
  pySlice f (o + 20) ks = e.2.1 ∧
  pySlice f (o + 20 + ks) e.2.2.length = e.2.2

/-- `ChainRepr f ks lb o es`: offset `o` heads a linked chain laying out
the entries `es` (newest first).  Every entry sits at an offset in
`[lb, 2^64)`; each `next_offset` points strictly downward.  The tail's
`next_offset` is deliberately unconstrained: on a freshly written chain it
is 0, but `flush` can overwrite its first byte with a Bloom byte when the
tail is the very first entry of the file (offset `bloom_off + 1`). -/

def ChainRepr (f : List Nat) (ks lb : Nat) : Nat → List DiskEntry → Prop
  | o, [] => o = 0
  | o, e :: rest =>
    lb ≤ o ∧ o < 2 ^ 64 ∧ entryAt f ks o e ∧
    (rest = [] ∨ (readLE f o 8 < o ∧ ChainRepr f ks lb (readLE f o 8) rest))

/-- The disk entry written for a put of `(k, v)`. -/
def entryOf (hf : HashFn) (kv : List Nat × List Nat) : DiskEntry :=
  (hf.d8 kv.1 % 2 ^ 64, kv.1, kv.2)

/-- The segment a key hashes to. -/
def segOf (hf : HashFn) (segs : Nat) (k : List Nat) : Nat :=
  (hf.d8 k % 2 ^ 64) % segs

/-- The chain contents of segment `seg` after the successful puts `H`
(in order): the puts hashing to `seg`, newest first. -/

def chainOf (hf : HashFn) (segs : Nat) (H : List (List Nat × List Nat))
    (seg : Nat) : List DiskEntry :=
  ((H.filter (fun kv => decide (segOf hf segs kv.1 = seg))).reverse).map
    (entryOf hf)

/-- The value of the newest put of key `k` in history `H`. -/
def lookupLast (H : List (List Nat × List Nat)) (k : List Nat) :
    Option (List Nat) :=
  (H.reverse.find? (fun kv => decide (kv.1 = k))).map (·.2)

/-- Invariant of every store reachable by create, put, flush, or
close-reopen under history `H` (the successful puts, in order). -/

structure SInv (hf : HashFn) (s : Store) (H : List (List Nat × List Nat)) :
    Prop where
  seg_pos : 1 ≤ s.segments
  seg_lt : s.segments < 2 ^ 32
  ks_lt : s.key_size < 2 ^ 16
  bloom_m : s.bloom.m = BLOOM_M0
  bloom_k : s.bloom.k = BLOOM_K0
  bloom_len : s.bloom.bits.length = 2
  flen : 24 + 8 * s.segments + 1 ≤ s.file.length
  magic : pySlice s.file 0 4 = MAGICB
  hdr_ks : readLE s.file 6 2 = s.key_size
  hdr_segs : readLE s.file 8 4 = s.segments
  hdr_clean : s.header_dirty = false →
    readLE s.file 12 8 = 2 ∧
    pySlice s.file (24 + 8 * s.segments) 2 = s.bloom.bits ∧
    24 + 8 * s.segments + 2 ≤ s.file.length
  keys_len : ∀ kv ∈ H, (kv.1 : List Nat).length = s.key_size
  vals_lt : ∀ kv ∈ H, (kv.2 : List Nat).length < 2 ^ 32
  bloom_mem : ∀ kv ∈ H, s.bloom.contains? hf kv.1 = some true
  chains : ∀ seg < s.segments,
    ChainRepr s.file s.key_size (24 + 8 * s.segments + 1)
      (readLE s.file (24 + 8 * seg) 8) (chainOf hf s.segments H seg)

/-- Stores reachable from creation by the public API, together with the
history of successful puts. -/

inductive Reach (hf : HashFn) : Store → List (List Nat × List Nat) → Prop
  | create (ks segs : Nat) (hseg : 1 ≤ segs) (hseg2 : segs < 2 ^ 32)
      (hks : ks < 2 ^ 16) : Reach hf (Store.createNew ks segs) []
  | put {s H k v s1} (hr : Reach hf s H)
      (hp : Store.putM hf s k v = (.ok (), s1)) :
      Reach hf s1 (H ++ [(k, v)])
  | flushStep {s H} (hr : Reach hf s H) : Reach hf (Store.flush s) H
  | reopen {s H s1} (hr : Reach hf s H)
      (ho : Store.openExisting s.key_size (Store.close s) = .ok s1) :
      Reach hf s1 H

/-! ## Bloom filter lemmas -/

/-- Bit `bit` of the packed byte array is set (the byte test performed by
both `Bloom.add` and `Bloom.__contains__`). -/

def hasBit (bits : List Nat) (bit : Nat) : Prop :=
  bits.getD (bit / 8) 0 &&& (1 <<< (bit % 8)) ≠ 0

def chainFind (h : Nat) (key : List Nat) (es : List DiskEntry) :
    Option (List Nat) :=
  (es.find? (fun e => decide (e.1 = h) && decide (e.2.1 = key))).map
    (fun e => e.2.2)

/-- The entry bytes appended by a successful `put`. -/
def entryBytes (h head vl : Nat) (k v : List Nat) : List Nat :=
  leBytes 8 head ++ leBytes 8 h ++ leBytes 4 vl ++ k ++ v

def chainOkFuel (f : List Nat) (ks lb : Nat) : Nat → Nat → Bool
  | 0, o => decide (o = 0)
  | fuel + 1, o =>
    if o = 0 then true
    else if o + 20 ≤ f.length then
      decide (lb ≤ o) &&
        decide (o + 20 + ks + readLE f (o + 16) 4 ≤ f.length) &&
        decide (readLE f o 8 < o) &&
        chainOkFuel f ks lb fuel (readLE f o 8)
    else false

/-- All bucket chains of the store are strictly decreasing and
0-terminated. -/

def chainsOk (s : Store) : Prop :=
  ∀ seg < s.segments,
    chainOkFuel s.file s.key_size (24 + 8 * s.segments + 1) s.file.length
      (readLE s.file (24 + 8 * seg) 8) = true

def hfZero : HashFn := ⟨fun _ => 0, fun _ => 8, fun _ => 0⟩

/-- A fresh store with `key_size = 2` and one segment (file layout:
24-byte header, 8-byte bucket table, 1 Bloom byte; entries from offset
33). -/

def cexStore0 : Store := Store.createNew 2 1

def cexK1 : List Nat := [1, 2]

def cexV1 : List Nat := [7]

def cexV2 : List Nat := [8]

/-- A probe key distinct from `cexK1` but with the same digests under
`hfZero` (a hash collision / Bloom false positive). -/

def cexK3 : List Nat := [9, 9]

/-- The store after `put(cexK1, cexV1)`. -/
def cexS1 : Store := (Store.putM hfZero cexStore0 cexK1 cexV1).2

/-- The store after a second `put(cexK1, cexV2)`. -/
def cexS2 : Store := (Store.putM hfZero cexS1 cexK1 cexV2).2

/-- A corrupt store image: plausible header and Bloom (all bits set), but
the single bucket head points at offset 40 whose 20-byte entry header
overruns the 33-byte file. -/

def cexC6 : Store :=
  { file := List.replicate 24 0 ++ leBytes 8 40 ++ [0]
    key_size := 2
    segments := 1
    bloom := ⟨10, 7, [255, 255]⟩
    header_dirty := false }

/-! ## Claims -/

/-- C1: for every key `k` with `len(k) = key_size` and every value `v`
accepted by `put`, after `put(k, v)` followed by `flush` on the same open
(reachable) store, `get(k)` returns `v`: the flush rewrites the Bloom byte
array at `bloom_offset = 24 + 8·segment_count` and the header, but
disturbs no field that the lookup of `k` reads. -/

theorem leBytes_length (w n : Nat) : (leBytes w n).length = w := by
  induction w generalizing n with
  | zero => rfl
  | succ w ih => simp [leBytes, ih]

theorem leVal_leBytes (w n : Nat) (h : n < 2 ^ (8 * w)) :
    leVal (leBytes w n) = n := by
  induction w generalizing n with
  | zero =>
    simp [Nat.mul_zero, Nat.pow_zero] at h
    simp [leBytes, leVal, h]
  | succ w ih =>
    have hdiv : n / 256 < 2 ^ (8 * w) := by
      apply Nat.div_lt_of_lt_mul
      calc n < 2 ^ (8 * (w + 1)) := h
        _ = 256 * 2 ^ (8 * w) := by ring
    simp only [leBytes, leVal, ih _ hdiv]
    omega

theorem pySlice_append_left (a b : List Nat) (o n : Nat)
    (h : o + n ≤ a.length) : pySlice (a ++ b) o n = pySlice a o n := by
  unfold pySlice
  rw [List.drop_append_eq_append_drop, List.take_append_eq_append_take]
  have h1 : (a.drop o).length = a.length - o := List.length_drop o a
  have h2 : n - (a.drop o).length = 0 := by omega
  rw [h2, List.take_zero, List.append_nil]

theorem pySlice_append_right (a b : List Nat) (i n : Nat) :
    pySlice (a ++ b) (a.length + i) n = pySlice b i n := by
  unfold pySlice
  rw [List.drop_append_eq_append_drop]
  have h1 : a.drop (a.length + i) = [] := List.drop_eq_nil_of_le (by omega)
  rw [h1, List.nil_append, Nat.add_sub_cancel_left]

theorem pySlice_append_ge (a b : List Nat) (o n : Nat) (h : a.length ≤ o) :
    pySlice (a ++ b) o n = pySlice b (o - a.length) n := by
  have : o = a.length + (o - a.length) := by omega
  rw [this, pySlice_append_right, Nat.add_sub_cancel_left]

theorem pySlice_zero_left (l : List Nat) (n : Nat) :
    pySlice l 0 n = l.take n := by
  simp [pySlice]

theorem pySlice_full (l : List Nat) : pySlice l 0 l.length = l := by
  simp [pySlice]

theorem writeBytes_length (f d : List Nat) (o : Nat)
    (h : o + d.length ≤ f.length) : (writeBytes f o d).length = f.length := by
  simp [writeBytes]
  omega

theorem pySlice_take (f : List Nat) (o a n : Nat) (h : a + n ≤ o) :
    pySlice (f.take o) a n = pySlice f a n := by
  unfold pySlice
  rw [List.drop_take, List.take_take]
  congr 1
  omega

theorem pySlice_writeBytes_self (f d : List Nat) (o : Nat)
    (h : o + d.length ≤ f.length) :
    pySlice (writeBytes f o d) o d.length = d := by
  show pySlice ((f.take o ++ d) ++ f.drop (o + d.length)) o d.length = d
  rw [pySlice_append_left _ _ _ _ (by simp; omega)]
  have h1 : (f.take o).length = o := by simp; omega
  rw [pySlice_append_ge _ _ _ _ (by omega), h1, Nat.sub_self,
    pySlice_zero_left, List.take_length]

theorem pySlice_writeBytes_before (f d : List Nat) (o a n : Nat)
    (ha : a + n ≤ o) (hf : o + d.length ≤ f.length) :
    pySlice (writeBytes f o d) a n = pySlice f a n := by
  show pySlice ((f.take o ++ d) ++ f.drop (o + d.length)) a n = pySlice f a n
  have h1 : (f.take o).length = o := by simp; omega
  rw [pySlice_append_left _ _ _ _ (by simp; omega),
    pySlice_append_left _ _ _ _ (by omega),
    pySlice_take f o a n ha]

theorem pySlice_writeBytes_after (f d : List Nat) (o a n : Nat)
    (ha : o + d.length ≤ a) (hf : o + d.length ≤ f.length) :
    pySlice (writeBytes f o d) a n = pySlice f a n := by
  show pySlice ((f.take o ++ d) ++ f.drop (o + d.length)) a n = pySlice f a n
  have h1 : (f.take o ++ d).length = o + d.length := by simp; omega
  rw [pySlice_append_ge _ _ _ _ (by omega), h1]
  unfold pySlice
  rw [List.drop_drop]
  congr 2
  omega

theorem readLE_writeBytes_before (f d : List Nat) (o a w : Nat)
    (ha : a + w ≤ o) (hf : o + d.length ≤ f.length) :
    readLE (writeBytes f o d) a w = readLE f a w := by
  unfold readLE
  rw [pySlice_writeBytes_before f d o a w ha hf]

theorem readLE_writeBytes_after (f d : List Nat) (o a w : Nat)
    (ha : o + d.length ≤ a) (hf : o + d.length ≤ f.length) :
    readLE (writeBytes f o d) a w = readLE f a w := by
  unfold readLE
  rw [pySlice_writeBytes_after f d o a w ha hf]

theorem readLE_writeBytes_self (f d : List Nat) (o : Nat)
    (h : o + d.length ≤ f.length) :
    readLE (writeBytes f o d) o d.length = leVal d := by
  unfold readLE
  rw [pySlice_writeBytes_self f d o h]

theorem readLE_append_left (a b : List Nat) (o w : Nat)
    (h : o + w ≤ a.length) : readLE (a ++ b) o w = readLE a o w := by
  unfold readLE
  rw [pySlice_append_left a b o w h]

theorem readLE_append_ge (a b : List Nat) (o w : Nat) (h : a.length ≤ o) :
    readLE (a ++ b) o w = readLE b (o - a.length) w := by
  unfold readLE
  rw [pySlice_append_ge a b o w h]

/-! ## Chain representation and reachable-store invariant -/

/-- A history entry as laid out on disk: stored 64-bit key hash, key bytes,
value bytes. -/

theorem and_shift_ne_iff (x r : Nat) :
    (x &&& (1 <<< r) ≠ 0) ↔ x.testBit r := by
  rw [Nat.shiftLeft_eq, one_mul, Nat.and_two_pow]
  cases h : x.testBit r <;> simp

theorem getD_eq_of_getElem? (l : List Nat) (i b : Nat)
    (h : l[i]? = some b) : l.getD i 0 = b := by
  rw [List.getD_eq_getElem?_getD, h]
  rfl

theorem getElem?_of_lt (l : List Nat) (i : Nat) (h : i < l.length) :
    l[i]? = some (l.getD i 0) := by
  rw [List.getD_eq_getElem?_getD]
  cases hq : l[i]? with
  | none =>
    rw [List.getElem?_eq_none_iff] at hq
    omega
  | some b => simp

/-- The in-range branch of the `Bloom.add` loop body: with
`m ≤ 8·len(bits)` the demanded byte index is always in range, so the
filter shape is untouched and the byte is OR-ed in place. -/

theorem bloomStep_eq (h1 h2 i : Nat) (b : Bloom) (hm : 0 < b.m)
    (hlen : b.m ≤ 8 * b.bits.length) :
    bloomStep h1 h2 i b =
      ⟨b.m, b.k, b.bits.set (((h1 + i * h2) % b.m) / 8)
        (b.bits.getD (((h1 + i * h2) % b.m) / 8) 0 |||
          (1 <<< (((h1 + i * h2) % b.m) % 8)))⟩ := by
  have hbit : (h1 + i * h2) % b.m < b.m := Nat.mod_lt _ hm
  have hbyte : ((h1 + i * h2) % b.m) / 8 < b.bits.length := by omega
  unfold bloomStep
  simp only [ge_iff_le]
  rw [if_neg (by omega)]

theorem bloomStep_shape (h1 h2 i : Nat) (b : Bloom) (hm : 0 < b.m)
    (hlen : b.m ≤ 8 * b.bits.length) :
    (bloomStep h1 h2 i b).m = b.m ∧ (bloomStep h1 h2 i b).k = b.k ∧
    (bloomStep h1 h2 i b).bits.length = b.bits.length := by
  rw [bloomStep_eq h1 h2 i b hm hlen]
  simp

theorem getD_set_same (l : List Nat) (j v : Nat) (h : j < l.length) :
    (l.set j v).getD j 0 = v := by
  apply getD_eq_of_getElem?
  exact List.getElem?_set_eq_of_lt v h

theorem getD_set_other (l : List Nat) (i j v : Nat) (h : i ≠ j) :
    (l.set i v).getD j 0 = l.getD j 0 := by
  rw [List.getD_eq_getElem?_getD, List.getD_eq_getElem?_getD,
    List.getElem?_set_ne h]

theorem bloomStep_mono (h1 h2 i : Nat) (b : Bloom) (hm : 0 < b.m)
    (hlen : b.m ≤ 8 * b.bits.length) (bit : Nat)
    (h : hasBit b.bits bit) : hasBit (bloomStep h1 h2 i b).bits bit := by
  rw [bloomStep_eq h1 h2 i b hm hlen]
  unfold hasBit at h ⊢
  simp only
  have hbit : (h1 + i * h2) % b.m < b.m := Nat.mod_lt _ hm
  have hbyte : ((h1 + i * h2) % b.m) / 8 < b.bits.length := by omega
  by_cases hij : ((h1 + i * h2) % b.m) / 8 = bit / 8
  · rw [hij] at hbyte ⊢
    rw [getD_set_same _ _ _ hbyte]
    rw [and_shift_ne_iff] at h ⊢
    rw [Nat.testBit_or, h]
    simp
  · rw [getD_set_other _ _ _ _ hij]
    exact h

theorem bloomStep_sets (h1 h2 i : Nat) (b : Bloom) (hm : 0 < b.m)
    (hlen : b.m ≤ 8 * b.bits.length) :
    hasBit (bloomStep h1 h2 i b).bits ((h1 + i * h2) % b.m) := by
  rw [bloomStep_eq h1 h2 i b hm hlen]
  unfold hasBit
  simp only
  have hbit : (h1 + i * h2) % b.m < b.m := Nat.mod_lt _ hm
  have hbyte : ((h1 + i * h2) % b.m) / 8 < b.bits.length := by omega
  rw [getD_set_same _ _ _ hbyte, and_shift_ne_iff, Nat.testBit_or]
  have : Nat.testBit (1 <<< (((h1 + i * h2) % b.m) % 8))
      (((h1 + i * h2) % b.m) % 8) = true := by
    rw [Nat.shiftLeft_eq, one_mul, Nat.testBit_two_pow_self]
  rw [this]
  simp

theorem bloomAddGo_shape (h1 h2 : Nat) (n : Nat) :
    ∀ (i : Nat) (b : Bloom), 0 < b.m → b.m ≤ 8 * b.bits.length →
    (bloomAddGo h1 h2 i n b).m = b.m ∧
    (bloomAddGo h1 h2 i n b).k = b.k ∧
    (bloomAddGo h1 h2 i n b).bits.length = b.bits.length := by
  induction n with
  | zero => intro i b _ _; exact ⟨rfl, rfl, rfl⟩
  | succ n ih =>
    intro i b hm hlen
    have hs := bloomStep_shape h1 h2 i b hm hlen
    have := ih (i + 1) (bloomStep h1 h2 i b) (by omega) (by omega)
    unfold bloomAddGo
    omega

theorem bloomAddGo_mono (h1 h2 : Nat) (n : Nat) :
    ∀ (i : Nat) (b : Bloom), 0 < b.m → b.m ≤ 8 * b.bits.length →
    ∀ bit, hasBit b.bits bit → hasBit (bloomAddGo h1 h2 i n b).bits bit := by
  induction n with
  | zero => intro i b _ _ bit h; exact h
  | succ n ih =>
    intro i b hm hlen bit h
    have hs := bloomStep_shape h1 h2 i b hm hlen
    unfold bloomAddGo
    exact ih (i + 1) _ (by omega) (by omega) bit
      (bloomStep_mono h1 h2 i b hm hlen bit h)

theorem bloomAddGo_sets (h1 h2 : Nat) (n : Nat) :
    ∀ (i : Nat) (b : Bloom), 0 < b.m → b.m ≤ 8 * b.bits.length →
    ∀ j, i ≤ j → j < i + n →
    hasBit (bloomAddGo h1 h2 i n b).bits ((h1 + j * h2) % b.m) := by
  induction n with
  | zero => intro i b _ _ j h1j h2j; omega
  | succ n ih =>
    intro i b hm hlen j h1j h2j
    have hs := bloomStep_shape h1 h2 i b hm hlen
    unfold bloomAddGo
    by_cases hji : j = i
    · subst hji
      have hset := bloomStep_sets h1 h2 j b hm hlen
      have := bloomAddGo_mono h1 h2 n (j + 1) (bloomStep h1 h2 j b)
        (by omega) (by omega) ((h1 + j * h2) % b.m) hset
      exact this
    · have := ih (i + 1) (bloomStep h1 h2 i b) (by omega) (by omega) j
        (by omega) (by omega)
      rwa [hs.1] at this

theorem bloomHasGo_true (h1 h2 m : Nat) (bits : List Nat) (n : Nat) :
    ∀ i : Nat, 0 < m → m ≤ 8 * bits.length →
    (∀ j, i ≤ j → j < i + n → hasBit bits ((h1 + j * h2) % m)) →
    bloomHasGo h1 h2 m bits i n = some true := by
  induction n with
  | zero => intro i _ _ _; rfl
  | succ n ih =>
    intro i hm hlen hset
    have hbit : (h1 + i * h2) % m < m := Nat.mod_lt _ hm
    have hbyte : ((h1 + i * h2) % m) / 8 < bits.length := by omega
    have hq := getElem?_of_lt bits _ hbyte
    have hhas := hset i (by omega) (by omega)
    have hhas2 : bits.getD (((h1 + i * h2) % m) / 8) 0 &&&
        (1 <<< (((h1 + i * h2) % m) % 8)) ≠ 0 := hhas
    unfold bloomHasGo
    simp only [List.get?_eq_getElem?, hq]
    rw [if_pos hhas2]
    exact ih (i + 1) hm hlen (fun j hj1 hj2 => hset j (by omega) (by omega))

theorem bloomHasGo_mono (h1 h2 m : Nat) (bits bits2 : List Nat) (n : Nat)
    (hlen : bits.length = bits2.length)
    (hmono : ∀ bit, hasBit bits bit → hasBit bits2 bit) :
    ∀ i : Nat, bloomHasGo h1 h2 m bits i n = some true →
    bloomHasGo h1 h2 m bits2 i n = some true := by
  induction n with
  | zero => intro i _; rfl
  | succ n ih =>
    intro i h
    unfold bloomHasGo at h ⊢
    simp only [List.get?_eq_getElem?] at h ⊢
    cases hq : bits[((h1 + i * h2) % m) / 8]? with
    | none => rw [hq] at h; simp at h
    | some byte =>
      rw [hq] at h
      simp only at h
      by_cases hcond : byte &&& (1 <<< (((h1 + i * h2) % m) % 8)) ≠ 0
      · rw [if_pos hcond] at h
        have hlt : ((h1 + i * h2) % m) / 8 < bits.length := by
          rcases List.getElem?_eq_some_iff.mp hq with ⟨hw, _⟩
          exact hw
        have hbits : hasBit bits ((h1 + i * h2) % m) := by
          unfold hasBit
          rw [getD_eq_of_getElem? _ _ _ hq]
          exact hcond
        have hbits2 := hmono _ hbits
        have hlt2 : ((h1 + i * h2) % m) / 8 < bits2.length := by omega
        have hq2 := getElem?_of_lt bits2 _ hlt2
        rw [hq2]
        simp only
        unfold hasBit at hbits2
        rw [if_pos hbits2]
        exact ih (i + 1) h
      · rw [if_neg hcond] at h
        simp at h

/-- With the store's only Bloom shape (`m = 10`, `k = 7`, 2 bytes covering
all 10 bit addresses), `add` never grows the array and afterwards
membership of the added key tests true. -/

theorem Bloom.contains_add_self (hf : HashFn) (key : List Nat) (b : Bloom)
    (hm : b.m = BLOOM_M0) (hk : b.k = BLOOM_K0) (hl : b.bits.length = 2) :
    (b.add hf key).contains? hf key = some true := by
  unfold Bloom.add Bloom.contains?
  have hm0 : 0 < b.m := by rw [hm]; decide
  have hlen : b.m ≤ 8 * b.bits.length := by rw [hm, hl]; decide
  have hsh := bloomAddGo_shape (hf.d16lo key % 2 ^ 64) (hf.d16hi key % 2 ^ 64)
    b.k 0 b hm0 hlen
  rw [hsh.1, hsh.2.1]
  apply bloomHasGo_true _ _ _ _ _ _ hm0 (by omega)
  intro j hj1 hj2
  have := bloomAddGo_sets (hf.d16lo key % 2 ^ 64) (hf.d16hi key % 2 ^ 64)
    b.k 0 b hm0 hlen j hj1 (by omega)
  exact this

/-- `add` only sets bits, so every key already testing positive still
tests positive afterwards. -/

theorem Bloom.contains_add_mono (hf : HashFn) (key key2 : List Nat)
    (b : Bloom) (hm : b.m = BLOOM_M0) (hl : b.bits.length = 2)
    (h : b.contains? hf key2 = some true) :
    (b.add hf key).contains? hf key2 = some true := by
  unfold Bloom.contains? at h ⊢
  unfold Bloom.add
  have hm0 : 0 < b.m := by rw [hm]; decide
  have hlen : b.m ≤ 8 * b.bits.length := by rw [hm, hl]; decide
  have hsh := bloomAddGo_shape (hf.d16lo key % 2 ^ 64) (hf.d16hi key % 2 ^ 64)
    b.k 0 b hm0 hlen
  rw [hsh.1, hsh.2.1]
  exact bloomHasGo_mono _ _ _ _ _ _ hsh.2.2.symm
    (bloomAddGo_mono _ _ _ _ _ hm0 hlen) 0 h

/-! ## Chain-walk characterization -/

/-- The result the chain walk is expected to produce on an entry list:
the value of the first entry matching both the stored hash and the key
bytes (the comparison order of `get`). -/

theorem ChainRepr_length_le (f : List Nat) (ks lb : Nat) (hlb : 1 ≤ lb) :
    ∀ es o, ChainRepr f ks lb o es → es.length ≤ o := by
  intro es
  induction es with
  | nil =>
    intro o _
    simp
  | cons e rest ih =>
    intro o hc
    obtain ⟨h1, _, _, hrest⟩ := hc
    rcases hrest with hnil | ⟨hlt, hcr⟩
    · subst hnil
      simp only [List.length_cons, List.length_nil]
      omega
    · have := ih _ hcr
      simp only [List.length_cons]
      omega

theorem walkChain_finds (f : List Nat) (ks lb h : Nat) (key : List Nat)
    (hlb : 1 ≤ lb) :
    ∀ es o fuel v, ChainRepr f ks lb o es → chainFind h key es = some v →
    es.length < fuel → walkChain f ks h key fuel o = .val v := by
  intro es
  induction es with
  | nil => intro o fuel v _ hfind _; simp [chainFind] at hfind
  | cons e rest ih =>
    intro o fuel v hc hfind hfuel
    obtain ⟨hlbo, ho64, hea, hrest⟩ := hc
    obtain ⟨hbound, hhash, hvs, hkey, hval⟩ := hea
    cases fuel with
    | zero => simp at hfuel
    | succ fu =>
      unfold walkChain
      rw [if_neg (by omega), if_pos (by omega)]
      by_cases hmatch : e.1 = h ∧ e.2.1 = key
      · have hcond : readLE f (o + 8) 8 = h ∧ pySlice f (o + 20) ks = key := by
          rw [hhash, hkey]; exact hmatch
        rw [if_pos hcond]
        unfold chainFind at hfind
        rw [List.find?_cons_of_pos rest (by simp [hmatch.1, hmatch.2])]
          at hfind
        simp only [Option.map] at hfind
        rw [hvs, hval]
        exact congrArg GetResult.val (Option.some.inj hfind)
      · have hcond : ¬(readLE f (o + 8) 8 = h ∧ pySlice f (o + 20) ks = key) := by
          rw [hhash, hkey]; exact hmatch
        rw [if_neg hcond]
        unfold chainFind at hfind
        rw [List.find?_cons_of_neg rest (by simpa using hmatch)] at hfind
        rcases hrest with hnil | ⟨_, hcr⟩
        · subst hnil; simp [chainFind] at hfind
        · exact ih _ fu v hcr hfind (by simp at hfuel ⊢; omega)

theorem find?_ext {α : Type} (l : List α) (p q : α → Bool)
    (h : ∀ x ∈ l, p x = q x) : l.find? p = l.find? q := by
  induction l with
  | nil => rfl
  | cons a l ih =>
    have ha := h a (List.mem_cons_self a l)
    by_cases hq : q a = true
    · rw [List.find?_cons_of_pos l (ha.trans hq), List.find?_cons_of_pos l hq]
    · have hp : ¬ p a = true := fun hp => hq ((ha.symm.trans hp))
      rw [List.find?_cons_of_neg l hp, List.find?_cons_of_neg l hq]
      exact ih (fun x hx => h x (List.mem_cons_of_mem a hx))

theorem find?_filter_of_imp {α : Type} (l : List α) (p q : α → Bool)
    (himp : ∀ x, p x = true → q x = true) :
    (l.filter q).find? p = l.find? p := by
  induction l with
  | nil => rfl
  | cons a l ih =>
    by_cases hq : q a = true
    · rw [List.filter_cons_of_pos hq]
      by_cases hp : p a = true
      · rw [List.find?_cons_of_pos _ hp, List.find?_cons_of_pos _ hp]
      · rw [List.find?_cons_of_neg _ hp, List.find?_cons_of_neg _ hp]
        exact ih
    · rw [List.filter_cons_of_neg hq]
      have hp : ¬ p a = true := fun hp => hq (himp a hp)
      rw [List.find?_cons_of_neg l hp]
      exact ih

theorem lookupLast_mem (H : List (List Nat × List Nat)) (k v : List Nat)
    (h : lookupLast H k = some v) : (k, v) ∈ H := by
  unfold lookupLast at h
  cases hfind : H.reverse.find? (fun kv => decide (kv.1 = k)) with
  | none => rw [hfind] at h; simp at h
  | some kv0 =>
    rw [hfind] at h
    simp only [Option.map] at h
    have hv : kv0.2 = v := Option.some.inj h
    have hmem : kv0 ∈ H.reverse := List.mem_of_find?_eq_some hfind
    have hpred := List.find?_some hfind
    simp only [decide_eq_true_eq] at hpred
    have : kv0 = (k, v) := by
      cases kv0
      simp at hpred hv ⊢
      exact ⟨hpred, hv⟩
    rw [← this]
    exact List.mem_reverse.mp hmem

/-- The chain of the probe key's segment contains exactly the newest value
put for that key, at the position `get`'s match condition selects. -/

theorem chainFind_chainOf (hf : HashFn) (segs : Nat)
    (H : List (List Nat × List Nat)) (key v : List Nat)
    (hlk : lookupLast H key = some v) :
    chainFind (hf.d8 key % 2 ^ 64) key
      (chainOf hf segs H (segOf hf segs key)) = some v := by
  unfold chainFind chainOf
  rw [List.find?_map]
  rw [Option.map_map]
  have hq : ∀ kv : List Nat × List Nat,
      ((fun e : DiskEntry => decide (e.1 = hf.d8 key % 2 ^ 64) &&
        decide (e.2.1 = key)) ∘ entryOf hf) kv =
      (fun kv : List Nat × List Nat => decide (kv.1 = key)) kv := by
    intro kv
    simp only [Function.comp, entryOf]
    by_cases hk : kv.1 = key
    · simp [hk]
    · simp [hk]
  rw [find?_ext _ _ _ (fun x _ => hq x)]
  rw [← List.filter_reverse]
  rw [find?_filter_of_imp _ _ _ (by
    intro kv hkv
    simp only [decide_eq_true_eq] at hkv ⊢
    rw [hkv])]
  unfold lookupLast at hlk
  cases hfind : H.reverse.find? (fun kv => decide (kv.1 = key)) with
  | none => rw [hfind] at hlk; simp at hlk
  | some kv0 =>
    rw [hfind] at hlk
    simp only [Option.map, Function.comp, entryOf] at hlk ⊢
    exact hlk

/-- In any invariant-satisfying store, `get` on a key with at least one
successful put returns the newest value put for it. -/

theorem SInv_get_found (hf : HashFn) (s : Store)
    (H : List (List Nat × List Nat)) (k v : List Nat)
    (inv : SInv hf s H) (hlk : lookupLast H k = some v) :
    Store.get hf s k = .val v := by
  have hmem : (k, v) ∈ H := lookupLast_mem H k v hlk
  have hcont : s.bloom.contains? hf k = some true := inv.bloom_mem (k, v) hmem
  have hseglt : (hf.d8 k % 2 ^ 64) % s.segments < s.segments :=
    Nat.mod_lt _ inv.seg_pos
  have hbound : 24 + 8 * ((hf.d8 k % 2 ^ 64) % s.segments) + 8 ≤
      s.file.length := by
    have := inv.flen
    omega
  have hc := inv.chains _ hseglt
  have hfindv := chainFind_chainOf hf s.segments H k v hlk
  have hsg : segOf hf s.segments k = (hf.d8 k % 2 ^ 64) % s.segments := rfl
  rw [hsg] at hfindv
  have hne : chainOf hf s.segments H ((hf.d8 k % 2 ^ 64) % s.segments) ≠ [] := by
    intro hnil
    rw [hnil] at hfindv
    simp [chainFind] at hfindv
  have hlb : (1 : Nat) ≤ 24 + 8 * s.segments + 1 := by omega
  have hlen_le := ChainRepr_length_le s.file s.key_size _ hlb
    (chainOf hf s.segments H ((hf.d8 k % 2 ^ 64) % s.segments))
    (readLE s.file (24 + 8 * ((hf.d8 k % 2 ^ 64) % s.segments)) 8) hc
  have hheadlt : readLE s.file (24 + 8 * ((hf.d8 k % 2 ^ 64) % s.segments)) 8
      < s.file.length := by
    cases hes : chainOf hf s.segments H ((hf.d8 k % 2 ^ 64) % s.segments) with
    | nil => exact absurd hes hne
    | cons e rest =>
      have hc2 := hc
      rw [hes] at hc2
      obtain ⟨_, _, hea, _⟩ := hc2
      have := hea.1
      omega
  unfold Store.get Store.getM
  rw [hcont]
  simp only
  rw [if_pos hbound]
  exact walkChain_finds s.file s.key_size (24 + 8 * s.segments + 1) _ k hlb
    _ _ _ v hc hfindv (by omega)

/-! ## Header and layout lemmas -/

theorem pySlice_start (X Y : List Nat) :
    pySlice (X ++ Y) X.length Y.length = Y := by
  rw [pySlice_append_ge X Y _ _ (le_refl _), Nat.sub_self, pySlice_full]

theorem pySlice_writeBytes_sub (f d : List Nat) (wo i n : Nat)
    (hin : i + n ≤ d.length) (hw : wo + d.length ≤ f.length) :
    pySlice (writeBytes f wo d) (wo + i) n = pySlice d i n := by
  show pySlice ((f.take wo ++ d) ++ f.drop (wo + d.length)) (wo + i) n =
    pySlice d i n
  have htake : (f.take wo).length = wo := by simp; omega
  rw [pySlice_append_left _ _ _ _ (by simp; omega),
    pySlice_append_ge _ _ _ _ (by omega), htake, Nat.add_sub_cancel_left]

theorem readLE_writeBytes_sub (f d : List Nat) (wo i n : Nat)
    (hin : i + n ≤ d.length) (hw : wo + d.length ≤ f.length) :
    readLE (writeBytes f wo d) (wo + i) n = readLE d i n := by
  unfold readLE
  rw [pySlice_writeBytes_sub f d wo i n hin hw]

theorem leVal_replicate_zero (n : Nat) : leVal (List.replicate n 0) = 0 := by
  induction n with
  | zero => rfl
  | succ n ih => simp [List.replicate, leVal, ih]

theorem header20_length (ks segs bb : Nat) :
    (header20 ks segs bb).length = 20 := by
  simp [header20, MAGICB, leBytes_length]

theorem header20_magic (ks segs bb : Nat) :
    pySlice (header20 ks segs bb) 0 4 = MAGICB := by
  unfold header20
  rw [pySlice_append_left _ _ _ _ (by simp [MAGICB, leBytes_length]),
    pySlice_append_left _ _ _ _ (by simp [MAGICB, leBytes_length]),
    pySlice_append_left _ _ _ _ (by simp [MAGICB, leBytes_length]),
    pySlice_append_left _ _ _ _ (by simp [MAGICB]),
    pySlice_zero_left]
  rfl

theorem header20_ks (ks segs bb : Nat) (h : ks < 2 ^ 16) :
    readLE (header20 ks segs bb) 6 2 = ks := by
  unfold header20 readLE
  have h6 : (MAGICB ++ leBytes 2 VERSION_MINOR).length = 6 := by
    simp [MAGICB, leBytes_length]
  rw [pySlice_append_left _ _ _ _ (by simp [MAGICB, leBytes_length]),
    pySlice_append_left _ _ _ _ (by simp [MAGICB, leBytes_length]),
    pySlice_append_ge _ _ _ _ (by omega), h6]
  norm_num
  rw [pySlice_zero_left, List.take_of_length_le (by rw [leBytes_length]),
    leVal_leBytes 2 ks (by omega)]

theorem header20_segs (ks segs bb : Nat) (h : segs < 2 ^ 32) :
    readLE (header20 ks segs bb) 8 4 = segs := by
  unfold header20 readLE
  have h8 : ((MAGICB ++ leBytes 2 VERSION_MINOR) ++ leBytes 2 ks).length = 8 := by
    simp [MAGICB, leBytes_length]
  rw [pySlice_append_left _ _ _ _ (by simp [MAGICB, leBytes_length]),
    pySlice_append_ge _ _ _ _ (by omega), h8]
  norm_num
  rw [pySlice_zero_left, List.take_of_length_le (by rw [leBytes_length]),
    leVal_leBytes 4 segs (by omega)]

theorem header20_bb (ks segs bb : Nat) (h : bb < 2 ^ 64) :
    readLE (header20 ks segs bb) 12 8 = bb := by
  unfold header20 readLE
  have h12 : (((MAGICB ++ leBytes 2 VERSION_MINOR) ++ leBytes 2 ks) ++
      leBytes 4 segs).length = 12 := by
    simp [MAGICB, leBytes_length]
  rw [pySlice_append_ge _ _ _ _ (by omega), h12]
  norm_num
  rw [pySlice_zero_left, List.take_of_length_le (by rw [leBytes_length]),
    leVal_leBytes 8 bb (by omega)]

/-! ## Chain preservation under file growth and disjoint writes -/

theorem entryAt_append (f t : List Nat) (ks o : Nat) (e : DiskEntry)
    (h : entryAt f ks o e) : entryAt (f ++ t) ks o e := by
  obtain ⟨hb, hh, hv, hk, hval⟩ := h
  refine ⟨by simp; omega, ?_, ?_, ?_, ?_⟩
  · rw [readLE_append_left _ _ _ _ (by omega)]; exact hh
  · rw [readLE_append_left _ _ _ _ (by omega)]; exact hv
  · rw [pySlice_append_left _ _ _ _ (by omega)]; exact hk
  · rw [pySlice_append_left _ _ _ _ (by omega)]; exact hval

theorem ChainRepr_append (f t : List Nat) (ks lb : Nat) :
    ∀ es o, ChainRepr f ks lb o es → ChainRepr (f ++ t) ks lb o es := by
  intro es
  induction es with
  | nil => intro o h; exact h
  | cons e rest ih =>
    intro o h
    obtain ⟨hlb, h64, hea, hrest⟩ := h
    refine ⟨hlb, h64, entryAt_append f t ks o e hea, ?_⟩
    rcases hrest with hnil | ⟨hlt, hcr⟩
    · exact Or.inl hnil
    · refine Or.inr ⟨?_, ?_⟩
      · rw [readLE_append_left _ _ _ _ (by have := hea.1; omega)]
        exact hlt
      · rw [readLE_append_left _ _ _ _ (by have := hea.1; omega)]
        exact ih _ hcr

theorem entryAt_write (f d : List Nat) (ks wo o : Nat) (e : DiskEntry)
    (hw : wo + d.length ≤ f.length) (hro : wo + d.length ≤ o + 8)
    (h : entryAt f ks o e) : entryAt (writeBytes f wo d) ks o e := by
  obtain ⟨hb, hh, hv, hk, hval⟩ := h
  refine ⟨by rw [writeBytes_length f d wo hw]; omega, ?_, ?_, ?_, ?_⟩
  · rw [readLE_writeBytes_after _ _ _ _ _ (by omega) hw]; exact hh
  · rw [readLE_writeBytes_after _ _ _ _ _ (by omega) hw]; exact hv
  · rw [pySlice_writeBytes_after _ _ _ _ _ (by omega) hw]; exact hk
  · rw [pySlice_writeBytes_after _ _ _ _ _ (by omega) hw]; exact hval

/-- Writes that end no later than one byte past `lb` preserve every chain:
the only possibly-overwritten byte is the first byte of a tail entry's
`next_offset`, which `ChainRepr` does not constrain. -/

theorem ChainRepr_write (f d : List Nat) (ks lb wo : Nat)
    (hw : wo + d.length ≤ f.length) (hend : wo + d.length ≤ lb + 1) :
    ∀ es o, ChainRepr f ks lb o es →
    ChainRepr (writeBytes f wo d) ks lb o es := by
  intro es
  induction es with
  | nil => intro o h; exact h
  | cons e rest ih =>
    intro o h
    obtain ⟨hlb, h64, hea, hrest⟩ := h
    rcases hrest with hnil | ⟨hlt, hcr⟩
    · exact ⟨hlb, h64, entryAt_write f d ks wo o e hw (by omega) hea,
        Or.inl hnil⟩
    · cases rest with
      | nil =>
        exact ⟨hlb, h64, entryAt_write f d ks wo o e hw (by omega) hea,
          Or.inl rfl⟩
      | cons e2 rest2 =>
        have hlb2 : lb ≤ readLE f o 8 := hcr.1
        have ho2 : wo + d.length ≤ o := by omega
        refine ⟨hlb, h64, entryAt_write f d ks wo o e hw (by omega) hea,
          Or.inr ⟨?_, ?_⟩⟩
        · rw [readLE_writeBytes_after _ _ _ _ _ ho2 hw]
          exact hlt
        · rw [readLE_writeBytes_after _ _ _ _ _ ho2 hw]
          exact ih _ hcr

theorem chainOf_append (hf : HashFn) (segs : Nat)
    (H : List (List Nat × List Nat)) (k v : List Nat) (seg : Nat) :
    chainOf hf segs (H ++ [(k, v)]) seg =
      (if segOf hf segs k = seg then [entryOf hf (k, v)] else []) ++
        chainOf hf segs H seg := by
  unfold chainOf
  rw [List.filter_append, List.reverse_append, List.map_append]
  congr 1
  by_cases hs : segOf hf segs k = seg
  · simp [hs]
  · simp [hs]

theorem chainOf_nil (hf : HashFn) (segs seg : Nat) :
    chainOf hf segs [] seg = [] := rfl

/-! ## Invariant establishment and preservation -/

theorem createNew_file_length (ks segs : Nat) :
    (Store.createNew ks segs).file.length = 24 + 8 * segs + 1 := by
  simp [Store.createNew, header20_length, header20, MAGICB, leBytes_length]
  omega

theorem SInv_create (hf : HashFn) (ks segs : Nat) (hseg : 1 ≤ segs)
    (hseg2 : segs < 2 ^ 32) (hks : ks < 2 ^ 16) :
    SInv hf (Store.createNew ks segs) [] := by
  have h24 : (header20 ks segs 1 ++ List.replicate 4 0).length = 24 := by
    simp [header20_length]
  have hfull := createNew_file_length ks segs
  constructor
  · exact hseg
  · exact hseg2
  · exact hks
  · rfl
  · rfl
  · simp [Store.createNew, Bloom.init, BLOOM_M0]
  · show 24 + 8 * segs + 1 ≤ (Store.createNew ks segs).file.length
    omega
  · show pySlice ((header20 ks segs 1 ++ List.replicate 4 0) ++
      List.replicate (8 * segs) 0 ++ [0]) 0 4 = MAGICB
    rw [pySlice_append_left _ _ _ _ (by simp [h24]; omega),
      pySlice_append_left _ _ _ _ (by omega),
      pySlice_append_left _ _ _ _ (by simp [header20_length])]
    exact header20_magic ks segs 1
  · show readLE ((header20 ks segs 1 ++ List.replicate 4 0) ++
      List.replicate (8 * segs) 0 ++ [0]) 6 2 = ks
    unfold readLE
    rw [pySlice_append_left _ _ _ _ (by simp [h24]; omega),
      pySlice_append_left _ _ _ _ (by omega),
      pySlice_append_left _ _ _ _ (by simp [header20_length])]
    exact header20_ks ks segs 1 hks
  · show readLE ((header20 ks segs 1 ++ List.replicate 4 0) ++
      List.replicate (8 * segs) 0 ++ [0]) 8 4 = segs
    unfold readLE
    rw [pySlice_append_left _ _ _ _ (by simp [h24]; omega),
      pySlice_append_left _ _ _ _ (by omega),
      pySlice_append_left _ _ _ _ (by simp [header20_length])]
    exact header20_segs ks segs 1 hseg2
  · intro hdirty
    simp [Store.createNew] at hdirty
  · intro kv hkv
    simp at hkv
  · intro kv hkv
    simp at hkv
  · intro kv hkv
    simp at hkv
  · intro seg hsegl
    have hsegl2 : seg < segs := hsegl
    rw [chainOf_nil]
    show ChainRepr _ _ _ (readLE ((header20 ks segs 1 ++ List.replicate 4 0) ++
      List.replicate (8 * segs) 0 ++ [0]) (24 + 8 * seg) 8) []
    unfold readLE
    rw [pySlice_append_left _ _ _ _
        (by simp only [List.length_append, List.length_replicate, h24]; omega),
      pySlice_append_ge _ _ _ _ (by rw [h24]; omega), h24]
    have hz : pySlice (List.replicate (8 * segs) 0) (24 + 8 * seg - 24) 8 =
        List.replicate 8 0 := by
      unfold pySlice
      rw [List.drop_replicate, List.take_replicate]
      congr 1
      omega
    rw [hz]
    exact leVal_replicate_zero 8

theorem entryBytes_length (h head vl : Nat) (k v : List Nat) :
    (entryBytes h head vl k v).length = 20 + k.length + v.length := by
  simp [entryBytes, leBytes_length]
  omega

theorem putM_ok_inv (hf : HashFn) (s : Store) (k v : List Nat) (s1 : Store)
    (hp : Store.putM hf s k v = (.ok (), s1)) :
    k.length = s.key_size ∧
    24 + 8 * ((hf.d8 k % 2 ^ 64) % s.segments) + 8 ≤ s.file.length ∧
    v.length < 2 ^ 32 ∧ s.file.length < 2 ^ 64 ∧
    s1 = { s with
      file := writeBytes
        (s.file ++ entryBytes (hf.d8 k % 2 ^ 64)
          (readLE s.file (24 + 8 * ((hf.d8 k % 2 ^ 64) % s.segments)) 8)
          v.length k v)
        (24 + 8 * ((hf.d8 k % 2 ^ 64) % s.segments))
        (leBytes 8 s.file.length)
      bloom := s.bloom.add hf k
      header_dirty := true } := by
  unfold Store.putM at hp
  by_cases h1 : k.length ≠ s.key_size
  · rw [if_pos h1] at hp
    simp at hp
  · rw [if_neg h1] at hp
    simp only at hp
    by_cases h2 : 24 + 8 * ((hf.d8 k % 2 ^ 64) % s.segments) + 8 ≤
        s.file.length
    · rw [if_pos h2] at hp
      by_cases h3 : v.length < 2 ^ 32
      · rw [if_pos h3] at hp
        by_cases h4 : s.file.length < 2 ^ 64
        · rw [if_pos h4] at hp
          refine ⟨by omega, h2, h3, h4, ?_⟩
          have := (Prod.mk.injEq _ _ _ _).mp hp
          exact this.2.symm
        · rw [if_neg h4] at hp
          simp at hp
      · rw [if_neg h3] at hp
        simp at hp
    · rw [if_neg h2] at hp
      simp at hp

theorem Bloom.add_shape (hf : HashFn) (key : List Nat) (b : Bloom)
    (hm : b.m = BLOOM_M0) (hl : b.bits.length = 2) :
    (b.add hf key).m = b.m ∧ (b.add hf key).k = b.k ∧
    (b.add hf key).bits.length = b.bits.length := by
  unfold Bloom.add
  exact bloomAddGo_shape _ _ b.k 0 b (by rw [hm]; decide)
    (by rw [hm, hl]; decide)

theorem entryBytes_head (h head vl : Nat) (k v : List Nat)
    (h64 : head < 2 ^ 64) : readLE (entryBytes h head vl k v) 0 8 = head := by
  unfold entryBytes readLE
  rw [pySlice_append_left _ _ _ _ (by simp [leBytes_length]),
    pySlice_append_left _ _ _ _ (by simp [leBytes_length]),
    pySlice_append_left _ _ _ _ (by simp [leBytes_length]),
    pySlice_append_left _ _ _ _ (by simp [leBytes_length]),
    pySlice_zero_left, List.take_of_length_le (by rw [leBytes_length]),
    leVal_leBytes 8 head h64]

theorem entryBytes_hash (h head vl : Nat) (k v : List Nat)
    (h64 : h < 2 ^ 64) : readLE (entryBytes h head vl k v) 8 8 = h := by
  unfold entryBytes readLE
  have h8 : (leBytes 8 head).length = 8 := leBytes_length 8 head
  rw [pySlice_append_left _ _ _ _ (by simp [leBytes_length]; omega),
    pySlice_append_left _ _ _ _ (by simp [leBytes_length]),
    pySlice_append_left _ _ _ _ (by simp [leBytes_length]),
    pySlice_append_ge _ _ _ _ (by omega), h8]
  norm_num
  rw [pySlice_zero_left, List.take_of_length_le (by rw [leBytes_length]),
    leVal_leBytes 8 h h64]

theorem entryBytes_vl (h head vl : Nat) (k v : List Nat)
    (h32 : vl < 2 ^ 32) : readLE (entryBytes h head vl k v) 16 4 = vl := by
  unfold entryBytes readLE
  have h16 : ((leBytes 8 head) ++ (leBytes 8 h)).length = 16 := by
    simp [leBytes_length]
  rw [pySlice_append_left _ _ _ _ (by simp [leBytes_length]; omega),
    pySlice_append_left _ _ _ _ (by simp [leBytes_length]),
    pySlice_append_ge _ _ _ _ (by omega), h16]
  norm_num
  rw [pySlice_zero_left, List.take_of_length_le (by rw [leBytes_length]),
    leVal_leBytes 4 vl h32]

theorem entryBytes_key (h head vl : Nat) (k v : List Nat) (ks : Nat)
    (hkl : k.length = ks) : pySlice (entryBytes h head vl k v) 20 ks = k := by
  unfold entryBytes
  have h20 : (((leBytes 8 head) ++ (leBytes 8 h)) ++ (leBytes 4 vl)).length
      = 20 := by simp [leBytes_length]
  rw [pySlice_append_left _ _ _ _ (by simp [leBytes_length]; omega),
    pySlice_append_ge _ _ _ _ (by omega), h20]
  norm_num
  rw [pySlice_zero_left, List.take_of_length_le (by omega)]

theorem entryBytes_val (h head vl : Nat) (k v : List Nat) (ks : Nat)
    (hkl : k.length = ks) :
    pySlice (entryBytes h head vl k v) (20 + ks) v.length = v := by
  unfold entryBytes
  have h20k : ((((leBytes 8 head) ++ (leBytes 8 h)) ++ (leBytes 4 vl)) ++
      k).length = 20 + ks := by simp [leBytes_length]; omega
  rw [pySlice_append_ge _ _ _ _ (by omega), h20k, Nat.sub_self,
    pySlice_zero_left, List.take_of_length_le (by omega)]

theorem SInv_put (hf : HashFn) (s : Store) (H : List (List Nat × List Nat))
    (k v : List Nat) (s1 : Store) (inv : SInv hf s H)
    (hp : Store.putM hf s k v = (.ok (), s1)) :
    SInv hf s1 (H ++ [(k, v)]) := by
  obtain ⟨hkl, hb8, hv32, h64f, hs1⟩ := putM_ok_inv hf s k v s1 hp
  subst hs1
  set hh := hf.d8 k % 2 ^ 64 with hhdef
  set sg := hh % s.segments with hsgdef
  set head := readLE s.file (24 + 8 * sg) 8 with hheaddef
  set E := entryBytes hh head v.length k v with hEdef
  set W := leBytes 8 s.file.length with hWdef
  have hsg_lt : sg < s.segments := Nat.mod_lt _ inv.seg_pos
  have hElen : E.length = 20 + s.key_size + v.length := by
    rw [hEdef, entryBytes_length]; omega
  have hW8 : W.length = 8 := leBytes_length _ _
  have hf1len : (s.file ++ E).length = s.file.length + (20 + s.key_size + v.length) := by
    simp [hElen]
  have hwb : 24 + 8 * sg + W.length ≤ (s.file ++ E).length := by
    rw [hW8]; simp; omega
  have hf2len : (writeBytes (s.file ++ E) (24 + 8 * sg) W).length =
      s.file.length + (20 + s.key_size + v.length) := by
    rw [writeBytes_length _ _ _ hwb, hf1len]
  have hlbp : 24 + 8 * sg + 8 ≤ 24 + 8 * s.segments := by omega
  have hflen := inv.flen
  -- facts about the old bucket head
  have hc0 := inv.chains _ hsg_lt
  have hhead_facts : (chainOf hf s.segments H sg = [] → head = 0) ∧
      head < 2 ^ 64 ∧
      (chainOf hf s.segments H sg ≠ [] → head + 20 ≤ s.file.length) := by
    cases hes : chainOf hf s.segments H sg with
    | nil =>
      rw [hes] at hc0
      have hz : head = 0 := hc0
      exact ⟨fun _ => hz, by rw [hz]; decide, fun hne => absurd rfl hne⟩
    | cons e0 rest0 =>
      rw [hes] at hc0
      obtain ⟨_, h64, hea, _⟩ := hc0
      exact ⟨fun hx => by simp at hx, h64, fun _ => by have := hea.1; omega⟩
  have hhead64 := hhead_facts.2.1
  -- reads of the freshly appended entry
  have hread_entry : ∀ j w, 8 ≤ j →
      readLE (writeBytes (s.file ++ E) (24 + 8 * sg) W) (s.file.length + j) w
        = readLE E j w := by
    intro j w hj
    rw [readLE_writeBytes_after _ _ _ _ _ (by rw [hW8]; omega) hwb,
      readLE_append_ge _ _ _ _ (by omega), Nat.add_sub_cancel_left]
  have hslice_entry : ∀ j n, 8 ≤ j →
      pySlice (writeBytes (s.file ++ E) (24 + 8 * sg) W) (s.file.length + j) n
        = pySlice E j n := by
    intro j n hj
    rw [pySlice_writeBytes_after _ _ _ _ _ (by rw [hW8]; omega) hwb,
      pySlice_append_ge _ _ _ _ (by omega), Nat.add_sub_cancel_left]
  -- the new bucket head reads back as the old end of file
  have hnewhead : readLE (writeBytes (s.file ++ E) (24 + 8 * sg) W)
      (24 + 8 * sg) 8 = s.file.length := by
    have := readLE_writeBytes_self (s.file ++ E) W (24 + 8 * sg) hwb
    rw [hW8] at this
    rw [this, hWdef, leVal_leBytes 8 _ h64f]
  -- Bloom shape
  have hbsh := Bloom.add_shape hf k s.bloom inv.bloom_m inv.bloom_len
  constructor
  · exact inv.seg_pos
  · exact inv.seg_lt
  · exact inv.ks_lt
  · rw [hbsh.1]; exact inv.bloom_m
  · rw [hbsh.2.1]; exact inv.bloom_k
  · rw [hbsh.2.2]; exact inv.bloom_len
  · show 24 + 8 * s.segments + 1 ≤
      (writeBytes (s.file ++ E) (24 + 8 * sg) W).length
    omega
  · show pySlice (writeBytes (s.file ++ E) (24 + 8 * sg) W) 0 4 = MAGICB
    rw [pySlice_writeBytes_before _ _ _ _ _ (by omega) hwb,
      pySlice_append_left _ _ _ _ (by omega)]
    exact inv.magic
  · show readLE (writeBytes (s.file ++ E) (24 + 8 * sg) W) 6 2 = s.key_size
    rw [readLE_writeBytes_before _ _ _ _ _ (by omega) hwb,
      readLE_append_left _ _ _ _ (by omega)]
    exact inv.hdr_ks
  · show readLE (writeBytes (s.file ++ E) (24 + 8 * sg) W) 8 4 = s.segments
    rw [readLE_writeBytes_before _ _ _ _ _ (by omega) hwb,
      readLE_append_left _ _ _ _ (by omega)]
    exact inv.hdr_segs
  · intro hdirty
    simp at hdirty
  · intro kv hkv
    rcases List.mem_append.mp hkv with hold | hnew
    · exact inv.keys_len kv hold
    · simp at hnew
      subst hnew
      exact hkl
  · intro kv hkv
    rcases List.mem_append.mp hkv with hold | hnew
    · exact inv.vals_lt kv hold
    · simp at hnew
      subst hnew
      exact hv32
  · intro kv hkv
    rcases List.mem_append.mp hkv with hold | hnew
    · exact Bloom.contains_add_mono hf k kv.1 s.bloom inv.bloom_m
        inv.bloom_len (inv.bloom_mem kv hold)
    · simp at hnew
      subst hnew
      exact Bloom.contains_add_self hf k s.bloom inv.bloom_m inv.bloom_k
        inv.bloom_len
  · intro seg hseg
    have hseg2 : seg < s.segments := hseg
    show ChainRepr (writeBytes (s.file ++ E) (24 + 8 * sg) W) s.key_size
      (24 + 8 * s.segments + 1)
      (readLE (writeBytes (s.file ++ E) (24 + 8 * sg) W) (24 + 8 * seg) 8)
      (chainOf hf s.segments (H ++ [(k, v)]) seg)
    clear hseg
    rw [chainOf_append]
    have hsgof : segOf hf s.segments k = sg := rfl
    by_cases hcase : segOf hf s.segments k = seg
    · -- the put's own segment: the new entry becomes the chain head
      rw [if_pos hcase]
      rw [hsgof] at hcase
      subst hcase
      rw [List.singleton_append, hnewhead]
      refine ⟨by omega, h64f, ?_, ?_⟩
      · -- the freshly written entry is laid out at the old end of file
        simp only [entryOf]
        refine ⟨?_, ?_, ?_, ?_, ?_⟩
        · show s.file.length + 20 + s.key_size + v.length ≤
            (writeBytes (s.file ++ E) (24 + 8 * sg) W).length
          rw [hf2len]
          omega
        · rw [hread_entry 8 8 (by omega), hEdef,
            entryBytes_hash _ _ _ _ _ (Nat.mod_lt _ (by decide))]
        · rw [hread_entry 16 4 (by omega), hEdef,
            entryBytes_vl _ _ _ _ _ hv32]
        · rw [hslice_entry 20 s.key_size (by omega), hEdef,
            entryBytes_key _ _ _ _ _ _ hkl]
        · have hassoc : s.file.length + 20 + s.key_size =
              s.file.length + (20 + s.key_size) := by omega
          rw [hassoc, hslice_entry (20 + s.key_size) v.length (by omega),
            hEdef, entryBytes_val _ _ _ _ _ _ hkl]
      · cases hes : chainOf hf s.segments H sg with
        | nil => exact Or.inl rfl
        | cons e0 rest0 =>
          have hnext : readLE (writeBytes (s.file ++ E) (24 + 8 * sg) W)
              s.file.length 8 = head := by
            rw [readLE_writeBytes_after _ _ _ _ _ (by rw [hW8]; omega) hwb,
              readLE_append_ge _ _ _ _ (le_refl _), Nat.sub_self, hEdef,
              entryBytes_head _ _ _ _ _ hhead64]
          have hne : chainOf hf s.segments H sg ≠ [] := by rw [hes]; simp
          have hlt20 := hhead_facts.2.2 hne
          refine Or.inr ⟨?_, ?_⟩
          · rw [hnext]; omega
          · rw [hnext]
            have hcr1 : ChainRepr (s.file ++ E) s.key_size
                (24 + 8 * s.segments + 1) head (chainOf hf s.segments H sg) :=
              ChainRepr_append s.file E s.key_size _ _ _ hc0
            have hcr2 := ChainRepr_write (s.file ++ E) W s.key_size
              (24 + 8 * s.segments + 1) (24 + 8 * sg) hwb
              (by rw [hW8]; omega) _ _ hcr1
            rw [hes] at hcr2
            exact hcr2
    · -- other segments: bucket head and chain bytes are untouched
      rw [if_neg hcase, List.nil_append]
      have hne2 : seg ≠ sg := fun he => hcase (by rw [hsgof, he])
      have hheadeq : readLE (writeBytes (s.file ++ E) (24 + 8 * sg) W)
          (24 + 8 * seg) 8 = readLE s.file (24 + 8 * seg) 8 := by
        rcases Nat.lt_or_ge seg sg with hlt | hge
        · rw [readLE_writeBytes_before _ _ _ _ _ (by omega) hwb,
            readLE_append_left _ _ _ _ (by omega)]
        · have hgt : sg < seg := by omega
          rw [readLE_writeBytes_after _ _ _ _ _ (by rw [hW8]; omega) hwb,
            readLE_append_left _ _ _ _ (by omega)]
      rw [hheadeq]
      exact ChainRepr_write (s.file ++ E) W s.key_size _ (24 + 8 * sg) hwb
        (by rw [hW8]; omega) _ _
        (ChainRepr_append s.file E s.key_size _ _ _ (inv.chains seg hseg2))

theorem SInv_flush_aux (hf : HashFn) (s : Store)
    (H : List (List Nat × List Nat)) (inv : SInv hf s H) (t : List Nat)
    (hlen : 24 + 8 * s.segments + 2 ≤ (s.file ++ t).length) :
    SInv hf
      { file := writeBytes
          (writeBytes (s.file ++ t) (24 + 8 * s.segments) s.bloom.bits) 0
          (header20 s.key_size s.segments s.bloom.bits.length)
        key_size := s.key_size
        segments := s.segments
        bloom := s.bloom
        header_dirty := false } H := by
  have hbl := inv.bloom_len
  have hflen := inv.flen
  have hglen : s.file.length ≤ (s.file ++ t).length := by simp
  have hw1 : 24 + 8 * s.segments + s.bloom.bits.length ≤
      (s.file ++ t).length := by omega
  have hf2len : (writeBytes (s.file ++ t) (24 + 8 * s.segments)
      s.bloom.bits).length = (s.file ++ t).length :=
    writeBytes_length _ _ _ hw1
  have hh20 : (header20 s.key_size s.segments s.bloom.bits.length).length = 20 :=
    header20_length _ _ _
  have hw2 : 0 + (header20 s.key_size s.segments s.bloom.bits.length).length ≤
      (writeBytes (s.file ++ t) (24 + 8 * s.segments) s.bloom.bits).length := by
    rw [hh20, hf2len]; omega
  have hf3len : (writeBytes
      (writeBytes (s.file ++ t) (24 + 8 * s.segments) s.bloom.bits) 0
      (header20 s.key_size s.segments s.bloom.bits.length)).length =
      (s.file ++ t).length := by
    rw [writeBytes_length _ _ _ hw2, hf2len]
  constructor
  · exact inv.seg_pos
  · exact inv.seg_lt
  · exact inv.ks_lt
  · exact inv.bloom_m
  · exact inv.bloom_k
  · exact inv.bloom_len
  · show 24 + 8 * s.segments + 1 ≤ _
    rw [hf3len]; omega
  · show pySlice _ 0 4 = MAGICB
    have h := pySlice_writeBytes_sub
      (writeBytes (s.file ++ t) (24 + 8 * s.segments) s.bloom.bits)
      (header20 s.key_size s.segments s.bloom.bits.length) 0 0 4
      (by rw [hh20]; omega) hw2
    norm_num at h
    rw [h]
    exact header20_magic _ _ _
  · show readLE _ 6 2 = s.key_size
    have h := readLE_writeBytes_sub
      (writeBytes (s.file ++ t) (24 + 8 * s.segments) s.bloom.bits)
      (header20 s.key_size s.segments s.bloom.bits.length) 0 6 2
      (by rw [hh20]; omega) hw2
    norm_num at h
    rw [h]
    exact header20_ks _ _ _ inv.ks_lt
  · show readLE _ 8 4 = s.segments
    have h := readLE_writeBytes_sub
      (writeBytes (s.file ++ t) (24 + 8 * s.segments) s.bloom.bits)
      (header20 s.key_size s.segments s.bloom.bits.length) 0 8 4
      (by rw [hh20]; omega) hw2
    norm_num at h
    rw [h]
    exact header20_segs _ _ _ inv.seg_lt
  · intro _
    refine ⟨?_, ?_, ?_⟩
    · show readLE _ 12 8 = 2
      have h := readLE_writeBytes_sub
        (writeBytes (s.file ++ t) (24 + 8 * s.segments) s.bloom.bits)
        (header20 s.key_size s.segments s.bloom.bits.length) 0 12 8
        (by omega) hw2
      norm_num at h
      rw [h, header20_bb _ _ _ (by omega), hbl]
    · show pySlice _ (24 + 8 * s.segments) 2 = s.bloom.bits
      rw [pySlice_writeBytes_after _ _ _ _ _ (by rw [hh20]; omega) hw2]
      have h := pySlice_writeBytes_self (s.file ++ t)
        s.bloom.bits (24 + 8 * s.segments) hw1
      rw [hbl] at h
      exact h
    · show 24 + 8 * s.segments + 2 ≤ _
      rw [hf3len]; omega
  · exact inv.keys_len
  · exact inv.vals_lt
  · exact inv.bloom_mem
  · intro seg hseg
    have hseg2 : seg < s.segments := hseg
    show ChainRepr _ s.key_size (24 + 8 * s.segments + 1)
      (readLE _ (24 + 8 * seg) 8) (chainOf hf s.segments H seg)
    have hhead : readLE (writeBytes
        (writeBytes (s.file ++ t) (24 + 8 * s.segments) s.bloom.bits) 0
        (header20 s.key_size s.segments s.bloom.bits.length))
        (24 + 8 * seg) 8 = readLE s.file (24 + 8 * seg) 8 := by
      rw [readLE_writeBytes_after _ _ _ _ _ (by rw [hh20]; omega) hw2,
        readLE_writeBytes_before _ _ _ _ _ (by omega) hw1,
        readLE_append_left _ _ _ _ (by omega)]
    rw [hhead]
    apply ChainRepr_write _ _ _ _ _ hw2 (by omega)
    apply ChainRepr_write _ _ _ _ _ hw1 (by omega)
    apply ChainRepr_append
    exact inv.chains seg hseg2

theorem flush_not_dirty (s : Store) : (Store.flush s).header_dirty = false := by
  unfold Store.flush
  by_cases hd : s.header_dirty
  · rw [if_pos hd]
  · rw [if_neg hd]
    simpa using hd

theorem SInv_flush (hf : HashFn) (s : Store) (H : List (List Nat × List Nat))
    (inv : SInv hf s H) : SInv hf (Store.flush s) H := by
  unfold Store.flush
  by_cases hd : s.header_dirty
  · rw [if_pos hd]
    show SInv hf
      { file := writeBytes
          (writeBytes
            (if s.file.length < 24 + 8 * s.segments + s.bloom.bits.length
              then s.file ++ List.replicate
                (24 + 8 * s.segments + s.bloom.bits.length - s.file.length) 0
              else s.file)
            (24 + 8 * s.segments) s.bloom.bits) 0
          (header20 s.key_size s.segments s.bloom.bits.length)
        key_size := s.key_size
        segments := s.segments
        bloom := s.bloom
        header_dirty := false } H
    by_cases hrs : s.file.length < 24 + 8 * s.segments + s.bloom.bits.length
    · rw [if_pos hrs]
      have hbl := inv.bloom_len
      exact SInv_flush_aux hf s H inv
        (List.replicate (24 + 8 * s.segments + s.bloom.bits.length -
          s.file.length) 0)
        (by simp; omega)
    · rw [if_neg hrs]
      have hbl := inv.bloom_len
      have hflen := inv.flen
      have haux := SInv_flush_aux hf s H inv [] (by simp; omega)
      rw [List.append_nil] at haux
      exact haux
  · rw [if_neg hd]
    exact inv

theorem flush_fields (s : Store) : (Store.flush s).key_size = s.key_size ∧
    (Store.flush s).segments = s.segments ∧
    (Store.flush s).bloom = s.bloom := by
  unfold Store.flush
  by_cases hd : s.header_dirty
  · rw [if_pos hd]
    exact ⟨rfl, rfl, rfl⟩
  · rw [if_neg hd]
    exact ⟨rfl, rfl, rfl⟩

theorem SInv_copy (hf : HashFn) (s s2 : Store)
    (H : List (List Nat × List Nat)) (inv : SInv hf s H)
    (hfile : s2.file = s.file) (hks : s2.key_size = s.key_size)
    (hsegs : s2.segments = s.segments) (hbl : s2.bloom = s.bloom)
    (hdirty : s2.header_dirty = false → s.header_dirty = false) :
    SInv hf s2 H := by
  constructor
  · rw [hsegs]; exact inv.seg_pos
  · rw [hsegs]; exact inv.seg_lt
  · rw [hks]; exact inv.ks_lt
  · rw [hbl]; exact inv.bloom_m
  · rw [hbl]; exact inv.bloom_k
  · rw [hbl]; exact inv.bloom_len
  · rw [hsegs, hfile]; exact inv.flen
  · rw [hfile]; exact inv.magic
  · rw [hfile, hks]; exact inv.hdr_ks
  · rw [hfile, hsegs]; exact inv.hdr_segs
  · intro hcl
    rw [hfile, hsegs, hbl]
    exact inv.hdr_clean (hdirty hcl)
  · rw [hks]; exact inv.keys_len
  · exact inv.vals_lt
  · rw [hbl]; exact inv.bloom_mem
  · rw [hsegs, hfile, hks]
    exact inv.chains

/-- `close` followed by `open` of the same path succeeds on every
invariant-satisfying store and reconstructs the same segment count, Bloom
state and file image as the flushed store. -/

theorem openExisting_close (hf : HashFn) (s : Store)
    (H : List (List Nat × List Nat)) (inv : SInv hf s H) :
    Store.openExisting s.key_size (Store.close s) =
      .ok { file := (Store.flush s).file
            key_size := s.key_size
            segments := s.segments
            bloom := s.bloom
            header_dirty := false } ∧
    SInv hf { file := (Store.flush s).file
              key_size := s.key_size
              segments := s.segments
              bloom := s.bloom
              header_dirty := false } H := by
  have invf := SInv_flush hf s H inv
  have hnd := flush_not_dirty s
  have hfl := flush_fields s
  have hclean := invf.hdr_clean hnd
  have hflen := invf.flen
  have hsegs0 : (Store.flush s).segments = s.segments := hfl.2.1
  have hmagic := invf.magic
  have hks : readLE (Store.flush s).file 6 2 = s.key_size := by
    rw [invf.hdr_ks]; exact hfl.1
  have hsegs : readLE (Store.flush s).file 8 4 = s.segments := by
    rw [invf.hdr_segs]; exact hsegs0
  have hbb : readLE (Store.flush s).file 12 8 = 2 := hclean.1
  have hraw : pySlice (Store.flush s).file (24 + 8 * s.segments) 2 =
      s.bloom.bits := by
    rw [← hsegs0]
    rw [hclean.2.1, hfl.2.2]
  constructor
  · have hunf : Store.openExisting s.key_size (Store.close s) =
        (if (Store.flush s).file.length < 20 then
          Except.error OpenErr.shortFile
        else if pySlice (Store.flush s).file 0 4 ≠ MAGICB then
          Except.error OpenErr.invalidFile
        else if readLE (Store.flush s).file 6 2 ≠ s.key_size then
          Except.error OpenErr.keySizeMismatch
        else Except.ok
          { file := (Store.flush s).file
            key_size := s.key_size
            segments := readLE (Store.flush s).file 8 4
            bloom := Bloom.from_bytes BLOOM_M0 BLOOM_K0
              (pySlice (Store.flush s).file
                (24 + 8 * readLE (Store.flush s).file 8 4)
                (readLE (Store.flush s).file 12 8))
            header_dirty := false } : Except OpenErr Store) := rfl
    rw [hunf, if_neg (by rw [hsegs0] at hflen; omega),
      if_neg (by rw [hmagic]; simp),
      if_neg (by rw [hks]; simp),
      hsegs, hbb, hraw]
    have hbe : Bloom.from_bytes BLOOM_M0 BLOOM_K0 s.bloom.bits = s.bloom := by
      have hm := inv.bloom_m
      have hk := inv.bloom_k
      cases hb : s.bloom with
      | mk m k bits =>
        rw [hb] at hm hk
        simp at hm hk
        unfold Bloom.from_bytes
        rw [hm, hk]
    rw [hbe]
  · exact SInv_copy hf (Store.flush s) _ H invf rfl
      (by simp [hfl.1]) (by simp [hsegs0]) (by simp [hfl.2.2])
      (fun _ => hnd)

/-- Every reachable store satisfies the invariant. -/
theorem Reach_SInv (hf : HashFn) {s : Store} {H : List (List Nat × List Nat)}
    (hr : Reach hf s H) : SInv hf s H := by
  induction hr with
  | create ks segs hseg hseg2 hks => exact SInv_create hf ks segs hseg hseg2 hks
  | put hr hp ih => exact SInv_put hf _ _ _ _ _ ih hp
  | flushStep hr ih => exact SInv_flush hf _ _ ih
  | reopen hr ho ih =>
    have h2 := openExisting_close hf _ _ ih
    have heq := Except.ok.inj (ho.symm.trans h2.1)
    rw [heq]
    exact h2.2

theorem lookupLast_append_self (H : List (List Nat × List Nat))
    (k v : List Nat) : lookupLast (H ++ [(k, v)]) k = some v := by
  unfold lookupLast
  rw [List.reverse_append]
  simp

/-- Fuel-bounded check that a bucket chain visits strictly decreasing,
in-bounds offsets and terminates at 0 (the invariant of §"chain
termination"; the store's `get` walks exactly these offsets).  Fuel
`f.length` always suffices: every visited offset is below `f.length` and
strictly decreases. -/

theorem chainOkFuel_mono (f : List Nat) (ks lb : Nat) :
    ∀ fuel fuel2 o, fuel ≤ fuel2 →
    chainOkFuel f ks lb fuel o = true → chainOkFuel f ks lb fuel2 o = true := by
  intro fuel
  induction fuel with
  | zero =>
    intro fuel2 o _ h
    simp [chainOkFuel] at h
    cases fuel2 with
    | zero => simp [chainOkFuel, h]
    | succ n => simp [chainOkFuel, h]
  | succ n ih =>
    intro fuel2 o hle h
    cases fuel2 with
    | zero => omega
    | succ m =>
      unfold chainOkFuel at h ⊢
      by_cases h0 : o = 0
      · rw [if_pos h0]
      · rw [if_neg h0] at h ⊢
        by_cases h20 : o + 20 ≤ f.length
        · rw [if_pos h20] at h ⊢
          simp only [Bool.and_eq_true] at h ⊢
          exact ⟨h.1, ih m _ (by omega) h.2⟩
        · rw [if_neg h20] at h
          simp at h

/-- A chain that passes the check is untouched by the append plus the
bucket-slot write a `put` performs (the written slot lies below `lb`). -/

theorem chainOkFuel_put_write (f t d : List Nat) (ks lb wo : Nat)
    (hwo : wo + d.length ≤ lb) (hwf : wo + d.length ≤ f.length) :
    ∀ fuel o, chainOkFuel f ks lb fuel o = true →
    chainOkFuel (writeBytes (f ++ t) wo d) ks lb fuel o = true := by
  intro fuel
  have hwf2 : wo + d.length ≤ (f ++ t).length := by simp; omega
  induction fuel with
  | zero => intro o h; exact h
  | succ n ih =>
    intro o h
    unfold chainOkFuel at h ⊢
    by_cases h0 : o = 0
    · rw [if_pos h0]
    · rw [if_neg h0] at h ⊢
      by_cases h20 : o + 20 ≤ f.length
      · rw [if_pos h20] at h
        simp only [Bool.and_eq_true, decide_eq_true_eq] at h
        obtain ⟨⟨⟨hlb, hbound⟩, hlt⟩, hrec⟩ := h
        have hr1 : readLE (writeBytes (f ++ t) wo d) o 8 = readLE f o 8 := by
          rw [readLE_writeBytes_after _ _ _ _ _ (by omega) hwf2,
            readLE_append_left _ _ _ _ (by omega)]
        have hr2 : readLE (writeBytes (f ++ t) wo d) (o + 16) 4 =
            readLE f (o + 16) 4 := by
          rw [readLE_writeBytes_after _ _ _ _ _ (by omega) hwf2,
            readLE_append_left _ _ _ _ (by omega)]
        have hlen2 : (writeBytes (f ++ t) wo d).length = f.length + t.length := by
          rw [writeBytes_length _ _ _ hwf2]
          simp
        rw [if_pos (by omega), hr1, hr2]
        simp only [Bool.and_eq_true, decide_eq_true_eq]
        exact ⟨⟨⟨hlb, by omega⟩, hlt⟩, ih _ hrec⟩
      · rw [if_neg h20] at h
        simp at h

/-- C7 core: a successful `put` writes the new entry with a `next_offset`
strictly below the entry's own offset and preserves the
decreasing-terminating shape of every bucket chain. -/

theorem putM_preserves_chainsOk (hf : HashFn) (s s1 : Store)
    (k v : List Nat) (hseg : 1 ≤ s.segments)
    (hflen : 24 + 8 * s.segments + 1 ≤ s.file.length)
    (hok : chainsOk s) (hp : Store.putM hf s k v = (.ok (), s1)) :
    readLE s1.file s.file.length 8 < s.file.length ∧ chainsOk s1 := by
  obtain ⟨hkl, hb8, hv32, h64f, hs1⟩ := putM_ok_inv hf s k v s1 hp
  subst hs1
  set hh := hf.d8 k % 2 ^ 64 with hhdef
  set sg := hh % s.segments with hsgdef
  set head := readLE s.file (24 + 8 * sg) 8 with hheaddef
  set E := entryBytes hh head v.length k v with hEdef
  set W := leBytes 8 s.file.length with hWdef
  have hsg_lt : sg < s.segments := Nat.mod_lt _ hseg
  have hElen : E.length = 20 + s.key_size + v.length := by
    rw [hEdef, entryBytes_length]; omega
  have hW8 : W.length = 8 := leBytes_length _ _
  have hwb : 24 + 8 * sg + W.length ≤ (s.file ++ E).length := by
    rw [hW8]; simp; omega
  have hf2len : (writeBytes (s.file ++ E) (24 + 8 * sg) W).length =
      s.file.length + (20 + s.key_size + v.length) := by
    rw [writeBytes_length _ _ _ hwb]
    simp [hElen]
  -- old-head facts from the old chain check
  have hok0 := hok sg hsg_lt
  have hhead_facts : head = 0 ∨
      (head ≠ 0 ∧ head + 20 ≤ s.file.length) := by
    by_cases h0 : head = 0
    · exact Or.inl h0
    · refine Or.inr ⟨h0, ?_⟩
      obtain ⟨n, hn⟩ : ∃ n, s.file.length = n + 1 :=
        ⟨s.file.length - 1, by omega⟩
      rw [hn] at hok0
      unfold chainOkFuel at hok0
      rw [if_neg h0] at hok0
      by_cases h20 : head + 20 ≤ s.file.length
      · exact h20
      · rw [if_neg (by omega)] at hok0
        simp at hok0
  have hhead64 : head < 2 ^ 64 := by
    rcases hhead_facts with h0 | ⟨_, h20⟩
    · rw [h0]; decide
    · omega
  -- the next field of the new entry reads back as the old head
  have hnext : readLE (writeBytes (s.file ++ E) (24 + 8 * sg) W)
      s.file.length 8 = head := by
    rw [readLE_writeBytes_after _ _ _ _ _ (by rw [hW8]; omega) hwb,
      readLE_append_ge _ _ _ _ (le_refl _), Nat.sub_self, hEdef,
      entryBytes_head _ _ _ _ _ hhead64]
  have hheadlt : head < s.file.length := by
    rcases hhead_facts with h0 | ⟨_, h20⟩
    · omega
    · omega
  constructor
  · rw [hnext]; exact hheadlt
  · -- all chains still check out
    intro seg hseg2
    have hseg3 : seg < s.segments := hseg2
    show chainOkFuel (writeBytes (s.file ++ E) (24 + 8 * sg) W) s.key_size
      (24 + 8 * s.segments + 1)
      (writeBytes (s.file ++ E) (24 + 8 * sg) W).length
      (readLE (writeBytes (s.file ++ E) (24 + 8 * sg) W) (24 + 8 * seg) 8)
      = true
    by_cases hcase : seg = sg
    · -- the updated bucket: new entry prepended
      rw [hcase]
      have hnewhead : readLE (writeBytes (s.file ++ E) (24 + 8 * sg) W)
          (24 + 8 * sg) 8 = s.file.length := by
        have := readLE_writeBytes_self (s.file ++ E) W (24 + 8 * sg) hwb
        rw [hW8] at this
        rw [this, hWdef, leVal_leBytes 8 _ h64f]
      rw [hnewhead, hf2len]
      have hfl1 : 0 < s.file.length + (20 + s.key_size + v.length) := by omega
      obtain ⟨fu, hfu⟩ : ∃ fu, s.file.length + (20 + s.key_size + v.length) =
          fu + 1 := ⟨s.file.length + (20 + s.key_size + v.length) - 1, by omega⟩
      rw [hfu]
      unfold chainOkFuel
      rw [if_neg (by omega), if_pos (by rw [hf2len]; omega)]
      have hvs : readLE (writeBytes (s.file ++ E) (24 + 8 * sg) W)
          (s.file.length + 16) 4 = v.length := by
        rw [readLE_writeBytes_after _ _ _ _ _ (by rw [hW8]; omega) hwb,
          readLE_append_ge _ _ _ _ (by omega), Nat.add_sub_cancel_left,
          hEdef, entryBytes_vl _ _ _ _ _ hv32]
      rw [hvs, hnext]
      simp only [Bool.and_eq_true, decide_eq_true_eq]
      refine ⟨⟨⟨by omega, by rw [hf2len]; omega⟩, hheadlt⟩, ?_⟩
      -- the old chain, shifted under the new file
      have hold := chainOkFuel_put_write s.file E W s.key_size
        (24 + 8 * s.segments + 1) (24 + 8 * sg) (by rw [hW8]; omega)
        (by rw [hW8]; omega) s.file.length head hok0
      exact chainOkFuel_mono _ _ _ _ _ _ (by omega) hold
    · -- untouched buckets
      have hne2 : seg ≠ sg := hcase
      have hheadeq : readLE (writeBytes (s.file ++ E) (24 + 8 * sg) W)
          (24 + 8 * seg) 8 = readLE s.file (24 + 8 * seg) 8 := by
        rcases Nat.lt_or_ge seg sg with hlt | hge
        · rw [readLE_writeBytes_before _ _ _ _ _ (by omega) hwb,
            readLE_append_left _ _ _ _ (by omega)]
        · have hgt : sg < seg := by omega
          rw [readLE_writeBytes_after _ _ _ _ _ (by rw [hW8]; omega) hwb,
            readLE_append_left _ _ _ _ (by omega)]
      rw [hheadeq]
      have hold := chainOkFuel_put_write s.file E W s.key_size
        (24 + 8 * s.segments + 1) (24 + 8 * sg) (by rw [hW8]; omega)
        (by rw [hW8]; omega) s.file.length
        (readLE s.file (24 + 8 * seg) 8) (hok seg hseg3)
      exact chainOkFuel_mono _ _ _ _ _ _ (by rw [hf2len]; omega) hold

/-! ## Concrete instances for closed evaluations -/

/-- A concrete hash model for closed-instance evaluations: every 8-byte
digest is 0 and the 16-byte digest halves are (8, 0), so every Bloom bit
index is 8 (making byte 1 of the bit array nonzero once any key is
added). -/

theorem claim_C1_round_trip (hf : HashFn) (s s1 : Store)
    (H : List (List Nat × List Nat)) (k v : List Nat)
    (hr : Reach hf s H) (hk : k.length = s.key_size)
    (hp : Store.putM hf s k v = (.ok (), s1)) :
    Store.get hf (Store.flush s1) k = .val v := by
  have inv1 := SInv_put hf s H k v s1 (Reach_SInv hf hr) hp
  have inv2 := SInv_flush hf s1 _ inv1
  exact SInv_get_found hf _ _ k v inv2 (lookupLast_append_self H k v)

theorem claim_C1_witness :
    Store.get hfZero (Store.flush cexS1) cexK1 = .val cexV1 :=
  claim_C1_round_trip hfZero cexStore0 cexS1 [] cexK1 cexV1
    (Reach.create 2 1 (by decide) (by decide) (by decide)) (by decide)
    (by rfl)

/-- C2: every key successfully put into a reachable store — across
flushes and close/reopen cycles, and with the on-demand growth path of
`Bloom.add` available — still tests positive in the Bloom filter: no
false negatives. -/

theorem claim_C2_no_false_negative (hf : HashFn) (s : Store)
    (H : List (List Nat × List Nat)) (k v : List Nat)
    (hr : Reach hf s H) (hm : (k, v) ∈ H) :
    s.bloom.contains? hf k = some true :=
  (Reach_SInv hf hr).bloom_mem (k, v) hm

theorem claim_C2_witness :
    cexS1.bloom.contains? hfZero cexK1 = some true :=
  claim_C2_no_false_negative hfZero cexS1 [(cexK1, cexV1)] cexK1 cexV1
    (Reach.put (Reach.create 2 1 (by decide) (by decide) (by decide))
      (by rfl))
    (by decide)

/-- C3 (counterexample): close + reopen does not yield identical `get`
results for *every* key.  After a single put of `cexK1`, the probe key
`cexK3` (same segment, Bloom-positive) reads `absent` before the close
but raises (`.err`, a `struct.error` while chasing a clobbered
`next_offset` into the header region) after reopening: `flush` wrote the
second Bloom byte over the first entry's `next_offset` at
`bloom_offset + 1`. -/

theorem claim_C3_counterexample :
    Store.get hfZero cexS1 cexK3 = .absent ∧
    (Store.openExisting 2 (Store.close cexS1)).map
      (fun s => Store.get hfZero s cexK3) = .ok .err := by
  constructor
  · rfl
  · rfl

/-- C3 (amended): close + reopen yields identical `get` results for all
*inserted* keys: the reopen succeeds, and every key that was successfully
put reads the same (newest) value as before the close. -/

theorem claim_C3_persistence_inserted (hf : HashFn) (s : Store)
    (H : List (List Nat × List Nat)) (k v : List Nat)
    (hr : Reach hf s H) (hm : (k, v) ∈ H) :
    ∃ s1, Store.openExisting s.key_size (Store.close s) = .ok s1 ∧
      Store.get hf s1 k = Store.get hf s k := by
  have inv := Reach_SInv hf hr
  have h2 := openExisting_close hf s H inv
  obtain ⟨v0, hlk⟩ : ∃ v0, lookupLast H k = some v0 := by
    unfold lookupLast
    cases hfind : H.reverse.find? (fun kv => decide (kv.1 = k)) with
    | none =>
      have := List.find?_eq_none.mp hfind (k, v) (List.mem_reverse.mpr hm)
      simp at this
    | some kv0 => exact ⟨kv0.2, by rfl⟩
  refine ⟨_, h2.1, ?_⟩
  rw [SInv_get_found hf _ _ k v0 h2.2 hlk, SInv_get_found hf s _ k v0 inv hlk]

theorem claim_C3_witness :
    ∃ s1, Store.openExisting cexS1.key_size (Store.close cexS1) = .ok s1 ∧
      Store.get hfZero s1 cexK1 = Store.get hfZero cexS1 cexK1 :=
  claim_C3_persistence_inserted hfZero cexS1 [(cexK1, cexV1)] cexK1 cexV1
    (Reach.put (Reach.create 2 1 (by decide) (by decide) (by decide))
      (by rfl))
    (by decide)

/-- C4: after `put(k, v1); put(k, v2)` on the same reachable store,
`get(k)` returns `v2`: the newest insert becomes the chain head and
shadows every older entry for the key. -/

theorem claim_C4_lifo (hf : HashFn) (s s1 s2 : Store)
    (H : List (List Nat × List Nat)) (k v1 v2 : List Nat)
    (hr : Reach hf s H) (hk : k.length = s.key_size)
    (hp1 : Store.putM hf s k v1 = (.ok (), s1))
    (hp2 : Store.putM hf s1 k v2 = (.ok (), s2)) :
    Store.get hf s2 k = .val v2 := by
  have i1 := SInv_put hf s H k v1 s1 (Reach_SInv hf hr) hp1
  have i2 := SInv_put hf s1 _ k v2 s2 i1 hp2
  exact SInv_get_found hf _ _ k v2 i2
    (lookupLast_append_self (H ++ [(k, v1)]) k v2)

theorem claim_C4_witness : Store.get hfZero cexS2 cexK1 = .val cexV2 :=
  claim_C4_lifo hfZero cexStore0 cexS1 cexS2 [] cexK1 cexV1 cexV2
    (Reach.create 2 1 (by decide) (by decide) (by decide)) (by decide)
    (by rfl) (by rfl)

/-- C5 (counterexample): reopening the closed store of the C3 scenario
yields a Bloom filter with `m = 10` (the constructor formula for the
`n = 1` hint at `fp = 0.01`) although the reloaded byte array has 2 bytes,
so `m ≠ 8·len(bytes) = 16`: bit indices after reopen are computed modulo
10, not modulo `8·len(bytes)`. -/

theorem claim_C5_counterexample :
    (Store.openExisting 2 (Store.close cexS1)).map
      (fun s => decide (s.bloom.m = 8 * s.bloom.bits.length)) = .ok false := by
  rfl

/-- C5 (amended): when an existing store file is opened, the byte array is
reloaded from `[bloom_off, bloom_off + bloom_bits)`, but `m` (and `k`) are
recomputed by the `Bloom.__init__` formula from the clamped item-count
hint `n = 1` and the fp rate — `m = 10` for the default 0.01 —
independently of the loaded byte length; `m` becomes `8·len(bits)` only
if a later `add` grows the array. -/

theorem claim_C5_open_m (ks : Nat) (f : List Nat) (s1 : Store)
    (ho : Store.openExisting ks f = .ok s1) :
    s1.bloom.m = BLOOM_M0 ∧ s1.bloom.k = BLOOM_K0 ∧
    s1.bloom.bits = pySlice f (24 + 8 * readLE f 8 4) (readLE f 12 8) := by
  unfold Store.openExisting at ho
  by_cases h1 : f.length < 20
  · rw [if_pos h1] at ho
    simp at ho
  · rw [if_neg h1] at ho
    simp only at ho
    by_cases h2 : pySlice f 0 4 ≠ MAGICB
    · rw [if_pos h2] at ho
      simp at ho
    · rw [if_neg h2] at ho
      by_cases h3 : readLE f 6 2 ≠ ks
      · rw [if_pos h3] at ho
        simp at ho
      · rw [if_neg h3] at ho
        have := Except.ok.inj ho
        rw [← this]
        exact ⟨rfl, rfl, rfl⟩

theorem claim_C5_witness :
    ((Store.openExisting 2 (Store.close cexS1)).toOption.getD
      cexStore0).bloom.m = BLOOM_M0 :=
  (claim_C5_open_m 2 (Store.close cexS1) _ (by rfl)).1

/-- C6 (counterexample): on a corrupt file image whose bucket head points
at an entry header overrunning the file, `get` does not return absent: it
surfaces the uncaught `struct.error` (`.err`), contradicting the
CorruptChain policy of returning absent without crashing. -/

theorem claim_C6_counterexample : Store.get hfZero cexC6 [3, 3] = .err := by
  rfl

/-- C6 (amended): `get` implements no CorruptChain handling: whenever the
Bloom filter reports present and the chain walk reaches a nonzero offset
whose 20-byte entry header overruns the file, `get` raises the
`struct.error` from `unpack_from` (modelled `.err`) instead of returning
absent. -/

theorem claim_C6_overrun_raises (hf : HashFn) (s : Store) (key : List Nat)
    (hcont : s.bloom.contains? hf key = some true)
    (hb : 24 + 8 * ((hf.d8 key % 2 ^ 64) % s.segments) + 8 ≤ s.file.length)
    (hhead : readLE s.file (24 + 8 * ((hf.d8 key % 2 ^ 64) % s.segments)) 8 ≠ 0)
    (hover : s.file.length <
      readLE s.file (24 + 8 * ((hf.d8 key % 2 ^ 64) % s.segments)) 8 + 20) :
    Store.get hf s key = .err := by
  unfold Store.get Store.getM
  rw [hcont]
  simp only
  rw [if_pos hb]
  show walkChain s.file s.key_size (hf.d8 key % 2 ^ 64) key
    (s.file.length + 1) _ = .err
  unfold walkChain
  rw [if_neg hhead, if_neg (by omega)]

theorem claim_C6_witness : Store.get hfZero cexC6 [4, 4] = .err :=
  claim_C6_overrun_raises hfZero cexC6 [4, 4] (by rfl) (by decide)
    (by decide) (by decide)

/-- C7: every entry written by a successful `put` has a `next_offset`
strictly smaller than the entry's own offset (the old end of file), and
the invariant "traversal from any bucket head visits strictly decreasing
offsets and terminates at 0" is preserved by every `put`. -/

theorem claim_C7_put_chain_invariant (hf : HashFn) (s s1 : Store)
    (k v : List Nat) (hseg : 1 ≤ s.segments)
    (hflen : 24 + 8 * s.segments + 1 ≤ s.file.length)
    (hok : chainsOk s) (hp : Store.putM hf s k v = (.ok (), s1)) :
    readLE s1.file s.file.length 8 < s.file.length ∧ chainsOk s1 :=
  putM_preserves_chainsOk hf s s1 k v hseg hflen hok hp

theorem claim_C7_witness :
    readLE cexS1.file cexStore0.file.length 8 < cexStore0.file.length ∧
      chainsOk cexS1 :=
  claim_C7_put_chain_invariant hfZero cexStore0 cexS1 cexK1 cexV1
    (by decide) (by decide) (by unfold chainsOk; decide) (by rfl)

/-- C8: `put` fails with `KeySizeMismatch` (ValueError "Key length
mismatch") exactly when the key length differs from the store's
`key_size`; the failure leaves the store untouched and a well-formed
subsequent put on the same store succeeds (so `get` results are likewise
unaffected). -/

theorem claim_C8_key_size_mismatch (hf : HashFn) (s : Store)
    (k v : List Nat) (hseg : 1 ≤ s.segments)
    (hflen : 24 + 8 * s.segments ≤ s.file.length)
    (h64 : s.file.length < 2 ^ 64) :
    ((Store.putM hf s k v).1 = .error .keySize ↔ k.length ≠ s.key_size) ∧
    (k.length ≠ s.key_size → Store.putM hf s k v = (.error .keySize, s)) ∧
    (∀ k2 v2 : List Nat, k2.length = s.key_size → v2.length < 2 ^ 32 →
      (Store.putM hf s k2 v2).1 = .ok ()) := by
  have hfail : ∀ k2 v2 : List Nat, k2.length ≠ s.key_size →
      Store.putM hf s k2 v2 = (.error .keySize, s) := by
    intro k2 v2 hk2
    unfold Store.putM
    rw [if_pos hk2]
  have hb : ∀ k2 : List Nat,
      24 + 8 * ((hf.d8 k2 % 2 ^ 64) % s.segments) + 8 ≤ s.file.length := by
    intro k2
    have := Nat.mod_lt (hf.d8 k2 % 2 ^ 64) hseg
    omega
  have hok : ∀ k2 v2 : List Nat, k2.length = s.key_size →
      v2.length < 2 ^ 32 → (Store.putM hf s k2 v2).1 = .ok () := by
    intro k2 v2 hk2 hv2
    unfold Store.putM
    rw [if_neg (by simp [hk2])]
    simp only
    rw [if_pos (hb k2), if_pos hv2, if_pos h64]
  refine ⟨⟨?_, ?_⟩, hfail k v, hok⟩
  · intro herr
    by_contra hkk
    unfold Store.putM at herr
    rw [if_neg (by simp [hkk])] at herr
    simp only at herr
    rw [if_pos (hb k)] at herr
    by_cases hv2 : v.length < 2 ^ 32
    · rw [if_pos hv2, if_pos h64] at herr
      simp at herr
    · rw [if_neg hv2] at herr
      simp at herr
  · intro hk
    rw [hfail k v hk]

theorem claim_C8_witness :
    ((Store.putM hfZero cexStore0 [5] cexV1).1 = .error .keySize ↔
      [5].length ≠ cexStore0.key_size) ∧
    ([5].length ≠ cexStore0.key_size →
      Store.putM hfZero cexStore0 [5] cexV1 = (.error .keySize, cexStore0)) ∧
    (∀ k2 v2 : List Nat, k2.length = cexStore0.key_size →
      v2.length < 2 ^ 32 → (Store.putM hfZero cexStore0 k2 v2).1 = .ok ()) :=
  claim_C8_key_size_mismatch hfZero cexStore0 [5] cexV1 (by decide)
    (by decide) (by decide)

/-- C9: `get` is read-only: no statement of the method writes to the file
image (header, bucket table, Bloom region or entries), the in-memory
Bloom byte array, or the header-dirty flag, so the store state after any
`get` call — on any store, any key, any exit path including the Bloom
short-circuit and the error exits — is exactly the input state. -/

theorem claim_C9_get_readonly (hf : HashFn) (s : Store) (key : List Nat) :
    (Store.getM hf s key).2 = s := by
  unfold Store.getM
  cases hc : s.bloom.contains? hf key with
  | none => rfl
  | some b =>
    cases b
    · rfl
    · simp only
      by_cases hb : 24 + 8 * ((hf.d8 key % 2 ^ 64) % s.segments) + 8 ≤
          s.file.length
      · rw [if_pos hb]
      · rw [if_neg hb]

/-- C10: the `KeySizeMismatch` precondition failure of `put` is atomic:
the length check runs before any mutation, so the raising call returns
with the file image, bucket table, Bloom bits and header-dirty flag
exactly as before the call. -/

theorem claim_C10_put_failure_atomic (hf : HashFn) (s : Store)
    (k v : List Nat) (hk : k.length ≠ s.key_size) :
    Store.putM hf s k v = (.error .keySize, s) := by
  unfold Store.putM
  rw [if_pos hk]

theorem claim_C10_witness :
    Store.putM hfZero cexStore0 [5] cexV1 = (.error .keySize, cexStore0) :=
  claim_C10_put_failure_atomic hfZero cexStore0 [5] cexV1 (by decide)
